import Mathlib

/-!
# Verification of the gs-search indexing core

A shallow embedding, in Lean 4, of the gs-search full-text indexing engine
(`src/core/SearchEngine.ts`, `src/core/MetaManager.ts`, the
`IntermediateCache` append log, and the 64-bit inverted-index segment
`IndexSegment64`), together with theorems settling the specification claims
about it.

Conventions of the embedding:
* JS numbers used as ids, offsets and counts are modelled as `Nat`; the
  places where the code writes them through `DataView.setUint32` /
  `setUint16` are modelled by explicit little-endian byte encodings that
  truncate modulo 2^32 / 2^16, exactly as the JS typed-array writes do.
* Byte buffers (`ArrayBuffer`) are modelled as `List UInt8`.
* `TextEncoder` / `TextDecoder` are modelled by an explicit pair of
  functions `enc : String → List UInt8` and `dec : List UInt8 → String`
  passed as parameters; theorems that need the UTF-8 round trip assume
  `dec (enc t) = t` for the tokens involved.
* The Murmur3 string hash is modelled as a parameter
  `hashF : String → Nat`; every theorem below holds for an arbitrary hash
  function, hence in particular for the engine's default `Murmur3_64`.
* Scores (JS floating-point numbers) are modelled as rationals `ℚ`; the
  score arithmetic of `search` is `1 + 0.1 × length`, exact in `ℚ`.
-/

set_option maxRecDepth 4000

namespace GsSearch

/-- A tokenized document (`ITokenizedDoc` in `Types.ts`):
`{id: number, tokens: string[]}`. -/
structure TokDoc where
  id : Nat
  tokens : List String
  deriving Repr, DecidableEq

/-! ## Little-endian byte encodings (`DataView` writes)

`DataView.setUint32(o, n, true)` stores the four bytes of `n mod 2^32`
least-significant first; `setUint16(o, n, true)` the two bytes of
`n mod 2^16`. `setUint32(o, n)` with the flag omitted stores big-endian. -/

/-- The two little-endian bytes written by `setUint16(_, n, true)`. -/
def le16 (n : Nat) : List UInt8 :=
  [UInt8.ofNat (n % 256), UInt8.ofNat (n / 256 % 256)]

/-- The four little-endian bytes written by `setUint32(_, n, true)`. -/
def le32 (n : Nat) : List UInt8 :=
  [UInt8.ofNat (n % 256), UInt8.ofNat (n / 256 % 256),
   UInt8.ofNat (n / 65536 % 256), UInt8.ofNat (n / 16777216 % 256)]

/-- The four big-endian bytes written by `setUint32(_, n)` (flag omitted,
which `DataView` interprets as big-endian). -/
def be32 (n : Nat) : List UInt8 :=
  [UInt8.ofNat (n / 16777216 % 256), UInt8.ofNat (n / 65536 % 256),
   UInt8.ofNat (n / 256 % 256), UInt8.ofNat (n % 256)]

/-- Read a `u32` little-endian from the first four bytes of a buffer
(`view.getUint32(offset, true)`); missing bytes read as 0. -/
def readU32 (b : List UInt8) : Nat :=
  (b.getD 0 0).toNat + 256 * (b.getD 1 0).toNat +
    65536 * (b.getD 2 0).toNat + 16777216 * (b.getD 3 0).toNat

/-- Read a `u16` little-endian from the first two bytes of a buffer
(`view.getUint16(offset, true)`). -/
def readU16 (b : List UInt8) : Nat :=
  (b.getD 0 0).toNat + 256 * (b.getD 1 0).toNat

/-! ## Intermediate cache (append log), from `IntermediateCache`

`appendBatch(filename, docs)` frames every tokenized document as
`id: u32-LE | tokenCount: u32-LE | (tokenLen: u16-LE | tokenBytes)×n | 0x1E`
into one buffer and appends it to the log file.  `readRange` scans framed
records, tolerantly stopping at a truncated tail.  The log file is a
`List UInt8`; `TextEncoder`/`TextDecoder` are the parameters `enc`/`dec`. -/

/-- The clamped token bytes written to the log: `encoder.encode(token)`,
sliced to 65535 bytes when longer
(`buf.byteLength > 65535 ? buf.slice(0, 65535) : buf`). -/
def encodeToken (enc : String → List UInt8) (t : String) : List UInt8 :=
  let buf := enc t
  if buf.length > 65535 then buf.take 65535 else buf

/-- One framed log record of a tokenized document, as built by
`IntermediateCache.appendBatch`: id (u32-LE), token count (u32-LE), then for
each token its clamped byte length (u16-LE) and bytes, then the 0x1E
separator. -/
def encodeDoc (enc : String → List UInt8) (d : TokDoc) : List UInt8 :=
  le32 d.id ++ le32 d.tokens.length ++
    (d.tokens.map fun t =>
      le16 (encodeToken enc t).length ++ encodeToken enc t).flatten ++ [0x1E]

/-- `appendBatch`: frame all records of the batch into one buffer and append
it to the log (a single `storage.append`); an empty batch appends nothing. -/
def appendBatch (enc : String → List UInt8) (log : List UInt8)
    (docs : List TokDoc) : List UInt8 :=
  log ++ (docs.map (encodeDoc enc)).flatten

/-- The token-reading loop of `readRange`: up to `count` tokens, each
`u16-LE` length plus that many bytes; `break` on a truncated frame leaves
the remaining bytes where the loop stopped. Returns the decoded tokens and
the unread remainder of the buffer. -/
def parseTokens (dec : List UInt8 → String) :
    Nat → List UInt8 → List String × List UInt8
  | 0, b => ([], b)
  | c + 1, b =>
    if b.length < 2 then ([], b)
    else
      let len := readU16 b
      let b1 := b.drop 2
      if b1.length < len then ([], b1)
      else
        let r := parseTokens dec c (b1.drop len)
        (dec (b1.take len) :: r.1, r.2)

/-- After the token loop, `readRange` skips a separator byte when the next
byte is 0x1E. -/
def skipSep (b : List UInt8) : List UInt8 :=
  if b.head? = some 0x1E then b.drop 1 else b

/-- The record-scanning loop of `readRange` over a whole buffer (fuelled):
while at least 8 bytes remain, read id and token count (u32-LE each), read
the tokens, skip a 0x1E separator byte when present, and emit the
document.  Every iteration consumes at least 8 bytes, so fuel `b.length`
makes the fuelled recursion compute the exact while-loop. -/
def parseDocsAux (dec : List UInt8 → String) : Nat → List UInt8 → List TokDoc
  | 0, _ => []
  | fuel + 1, b =>
    if b.length < 8 then []
    else
      let id := readU32 b
      let count := readU32 (b.drop 4)
      let r := parseTokens dec count (b.drop 8)
      ⟨id, r.1⟩ :: parseDocsAux dec fuel (skipSep r.2)

/-- The record-scanning loop of `readRange` over a whole buffer. -/
def parseDocs (dec : List UInt8 → String) (b : List UInt8) : List TokDoc :=
  parseDocsAux dec b.length b

/-- `readRange(log, 0, size)`: scan the whole log. (The storage's
`readRange(name, 0, size)` returns the full contents; an absent or empty
file yields `[]`, matching `parseDocs` on `[]`.) -/
def readRangeAll (dec : List UInt8 → String) (log : List UInt8) : List TokDoc :=
  parseDocs dec log

/-! ## 64-bit index segment (`IndexSegment64`)

`buildAndSave(docs)` builds an in-memory dictionary keyed by token
(a JS `Map`, iteration in insertion order), sorts its entries by
`(hash asc, token asc)` and serializes header/dictionary/postings/tokens.
The dictionary entries are modelled at the logical level (`DictEntry`);
`search(term)` reads exactly these fields back from the buffer (the UTF-8
token bytes decode to the stored token), so the byte round trip through the
dictionary region is the identity and `search` is modelled directly over
the sorted entry list.  The hash (`Murmur3_64` by default, or any injected
`IHashAlgorithm64`) is the parameter `hashF`. -/

/-- One dictionary entry: the token, its hash (`hash: u64`), and its
postings list of doc ids. -/
structure DictEntry where
  token : String
  hash : Nat
  postings : List Nat
  deriving Repr, DecidableEq

instance : Inhabited DictEntry := ⟨⟨"", 0, []⟩⟩

/-- `tokenMap.get(token)!.postings.push(id)`, creating the bucket at the end
of the map when absent (JS `Map` insertion order). -/
def bucketPush : List (String × List Nat) → String → Nat → List (String × List Nat)
  | [], t, i => [(t, [i])]
  | (u, ps) :: rest, t, i =>
    if u = t then (u, ps ++ [i]) :: rest else (u, ps) :: bucketPush rest t i

/-- The `for (const token of doc.tokens)` loop of `buildAndSave` with its
per-document `uniqueTokens` set: each distinct token of the document
contributes the document's id once to that token's bucket. -/
def addDocTokens (i : Nat) :
    List String → List (String × List Nat) × List String →
      List (String × List Nat) × List String
  | [], st => st
  | t :: ts, (bs, seen) =>
    if t ∈ seen then addDocTokens i ts (bs, seen)
    else addDocTokens i ts (bucketPush bs t i, t :: seen)

/-- Process one document of `buildAndSave` (fresh `uniqueTokens` per doc). -/
def addDocToBuckets (bs : List (String × List Nat)) (d : TokDoc) :
    List (String × List Nat) :=
  (addDocTokens d.id d.tokens (bs, [])).1

/-- The whole `tokenMap` after the postings-building loop of
`buildAndSave`. -/
def buildBuckets (docs : List TokDoc) : List (String × List Nat) :=
  docs.foldl addDocToBuckets []

/-- Association lookup in the bucket list (`tokenMap.get(token)`). -/
def lookupB : List (String × List Nat) → String → Option (List Nat)
  | [], _ => none
  | (u, ps) :: rest, t => if u = t then some ps else lookupB rest t

/-- The sort comparator of `buildAndSave`: hash ascending, ties by token
(`localeCompare`, modelled as code-point order; the tie order never affects
search answers because `search` walks the whole equal-hash run). -/
def entryLE (a b : DictEntry) : Prop :=
  a.hash < b.hash ∨ (a.hash = b.hash ∧ a.token ≤ b.token)

instance : DecidableRel entryLE := fun a b =>
  inferInstanceAs (Decidable (a.hash < b.hash ∨ (a.hash = b.hash ∧ a.token ≤ b.token)))

instance : IsTrans DictEntry entryLE :=
  ⟨fun a b c h1 h2 => by
    rcases h1 with h1 | ⟨h1, h1'⟩ <;> rcases h2 with h2 | ⟨h2, h2'⟩
    · exact Or.inl (lt_trans h1 h2)
    · exact Or.inl (by omega)
    · exact Or.inl (by omega)
    · exact Or.inr ⟨by omega, le_trans h1' h2'⟩⟩

instance : IsTotal DictEntry entryLE :=
  ⟨fun a b => by
    rcases Nat.lt_trichotomy a.hash b.hash with h | h | h
    · exact Or.inl (Or.inl h)
    · rcases le_total a.token b.token with ht | ht
      · exact Or.inl (Or.inr ⟨h, ht⟩)
      · exact Or.inr (Or.inr ⟨h.symm, ht⟩)
    · exact Or.inr (Or.inl h)⟩

/-- The sorted dictionary entries built by `buildAndSave(docs)`.
JS `Array.prototype.sort` is a stable sort; `entryLE` is a total preorder,
and every stable sort produces the same list for a total preorder, so the
stable `insertionSort` is the model. -/
def buildEntries (hashF : String → Nat) (docs : List TokDoc) : List DictEntry :=
  List.insertionSort entryLE
    ((buildBuckets docs).map fun p => DictEntry.mk p.1 (hashF p.1) p.2)

/-- Read dictionary entry `i` of the segment buffer
(`view.getBigUint64(headerSize + i*28)` and friends); indices are the JS
signed loop variables. -/
def getEnt (es : List DictEntry) (i : Int) : DictEntry := es.getD i.toNat default

/-- The backward walk of `search` to the first entry of an equal-hash run:
`while (firstMatch > 0 && es[firstMatch-1].hash == h) firstMatch--`. -/
def findFirstMatch (es : List DictEntry) (h : Nat) : Nat → Nat
  | 0 => 0
  | j + 1 => if (es.getD j default).hash = h then findFirstMatch es h j else j + 1

/-- The forward collision scan of `search` (fuelled): from `i` upward while
the hash still equals `h`, return the postings of the entry whose stored
token bytes decode to `term`; `[]` when the run is exhausted.  The fuel
`es.length - i` is exactly the number of indices the loop can visit, so the
fuelled recursion computes the exact loop. -/
def scanRunAux (es : List DictEntry) (term : String) (h : Nat) :
    Nat → Nat → List Nat
  | 0, _ => []
  | fuel + 1, i =>
    if hi : i < es.length then
      let e := es.get ⟨i, hi⟩
      if e.hash ≠ h then []
      else if e.token = term then e.postings
      else scanRunAux es term h fuel (i + 1)
    else []

/-- The forward collision scan of `search`, from index `i`. -/
def scanRun (es : List DictEntry) (term : String) (h : Nat) (i : Nat) :
    List Nat :=
  scanRunAux es term h (es.length - i) i

/-- The binary-search loop of `IndexSegment64.search` on the dictionary
(fuelled): compare the probed entry's hash with `h`; on a hit, return the
postings directly when neither neighbour shares the hash (fast path),
otherwise resolve the collision run.  Each iteration shrinks the interval
`[left, right]`, so fuel `(right + 1 - left).toNat` makes the fuelled
recursion compute the exact loop. -/
def segSearchLoopAux (es : List DictEntry) (term : String) (h : Nat) :
    Nat → Int → Int → List Nat
  | 0, _, _ => []
  | fuel + 1, left, right =>
    if right < left then []
    else
      let mid := (left + right) / 2
      let e := getEnt es mid
      if e.hash < h then segSearchLoopAux es term h fuel (mid + 1) right
      else if h < e.hash then segSearchLoopAux es term h fuel left (mid - 1)
      else
        let cnt : Int := es.length
        let hasConflict :=
          (decide (0 < mid) && decide ((getEnt es (mid - 1)).hash = h)) ||
          (decide (mid < cnt - 1) && decide ((getEnt es (mid + 1)).hash = h))
        if hasConflict then scanRun es term h (findFirstMatch es h mid.toNat)
        else e.postings

/-- The binary-search loop of `search` over the interval `[left, right]`. -/
def segSearchLoop (es : List DictEntry) (term : String) (h : Nat)
    (left right : Int) : List Nat :=
  segSearchLoopAux es term h (right + 1 - left).toNat left right

/-- `IndexSegment64.search(term)` on a built segment: binary search over
`[0, count-1]` for `hash(term)`. -/
def segSearch (hashF : String → Nat) (es : List DictEntry) (term : String) :
    List Nat :=
  segSearchLoop es term (hashF term) 0 ((es.length : Int) - 1)

/-- `buildAndSave(docs)` followed by `search(term)` — build the sorted
dictionary, then look the term up. -/
def buildAndSearch (hashF : String → Nat) (docs : List TokDoc) (term : String) :
    List Nat :=
  segSearch hashF (buildEntries hashF docs) term

/-! ## Byte-level serialization of `buildAndSave` -/

/-- The eight little-endian bytes written by `setBigUint64(_, n, true)`. -/
def le64 (n : Nat) : List UInt8 := le32 (n % 4294967296) ++ le32 (n / 4294967296)

/-- The dictionary region of the segment file: for each sorted entry a
28-byte record `hash: u64-LE | tokenByteLen: u32-LE | tokenOffset: u32-LE |
postingsOffset: u32-LE | postingsLen: u32-LE`, with the running postings
and token offsets advanced exactly as `buildAndSave` advances
`currentPostingsOffset` and `currentTokenOffset`. -/
def dictRecords (enc : String → List UInt8) :
    List DictEntry → Nat → Nat → List UInt8
  | [], _, _ => []
  | e :: rest, postOff, tokOff =>
    le64 e.hash ++ le32 (enc e.token).length ++ le32 tokOff ++ le32 postOff ++
      le32 e.postings.length ++
      dictRecords enc rest (postOff + e.postings.length * 4)
        (tokOff + (enc e.token).length + 1)

/-- The whole buffer written by `IndexSegment64.buildAndSave`: a 16-byte
header — magic `0x494E4458` written by `setUint32(0, 0x494E4458)` with the
little-endian flag omitted (hence big-endian), entry count (u32-LE),
tokens-region offset (u32-LE), hash-width tag 64 (u32-LE) — followed by the
dictionary records, the postings region (u32-LE doc ids), and the token
bytes each terminated by 0x00.  The sequential `DataView` writes fill the
regions contiguously in entry order, so the buffer is their concatenation. -/
def buildSegmentBytes (hashF : String → Nat) (enc : String → List UInt8)
    (docs : List TokDoc) : List UInt8 :=
  let entries := buildEntries hashF docs
  let totalPostings := (entries.map fun e => e.postings.length).sum
  let headerSize := 16
  let dictSize := entries.length * 28
  let tokensOffset := headerSize + dictSize + totalPostings * 4
  let header := be32 0x494E4458 ++ le32 entries.length ++ le32 tokensOffset ++
    le32 64
  let dict := dictRecords enc entries (headerSize + dictSize) tokensOffset
  let postings := (entries.map fun e => (e.postings.map le32).flatten).flatten
  let tokens := (entries.map fun e => enc e.token ++ [0]).flatten
  header ++ dict ++ postings ++ tokens

/-- Modelled from the claim's words (C9): a 16-byte header whose four
fields — the magic included — are all written little-endian. Used to
compare against the header actually emitted by `buildAndSave`. -/
def headerAllLE (entryCount tokensOffset : Nat) : List UInt8 :=
  le32 0x494E4458 ++ le32 entryCount ++ le32 tokensOffset ++ le32 64

/-! ## A concrete byte codec for witnesses

`TextEncoder`/`TextDecoder` instantiated on ASCII-only strings: one byte
per code point, a faithful round trip on every string the witnesses use. -/

/-- Concrete encoder: one byte per code point. -/
def asciiEnc (s : String) : List UInt8 := s.data.map fun c => UInt8.ofNat c.toNat

/-- Concrete decoder: one code point per byte. -/
def asciiDec (b : List UInt8) : String :=
  String.mk (b.map fun x => Char.ofNat x.toNat)

/-! ## The engine (`SearchEngine.ts` and `MetaManager.ts`)

The engine state holds the in-memory meta (segment catalogs, added and
deleted id sets), the two append logs, the segment files written by
`buildAndSave` (stored as the tokenized documents the file was built from —
the file's search answers are exactly `buildAndSearch` over them), the
batch flag with its pending token counts, and the last snapshot persisted
by `MetaManager.save`.  The blob store is folded into the state: logs and
segment files are the only blobs the claims observe. -/

/-- A document: `{id: number, text: string}` (`IDocument`). -/
structure Doc where
  id : Nat
  text : String
  deriving Repr, DecidableEq

/-- `ISegmentMeta` — `stop` models the source's `end` field (`end` is a
Lean keyword). -/
structure SegMeta where
  filename : String
  start : Nat
  stop : Nat
  tokenCount : Nat
  deriving Repr, DecidableEq

/-- `IndexType = 'word' | 'char'`. -/
inductive IndexType
  | word
  | char
  deriving Repr, DecidableEq

/-- The threshold configuration (after constructor defaulting). -/
structure EngineConfig where
  wordSegmentTokenThreshold : Nat
  charSegmentTokenThreshold : Nat
  minWordTokenSave : Nat
  minCharTokenSave : Nat
  deriving Repr, DecidableEq

/-- The default configuration values of the constructor. -/
def defaultConfig : EngineConfig := ⟨100000, 500000, 0, 0⟩

/-- What `MetaManager.save` persists. -/
structure MetaSnapshot where
  wordSegments : List SegMeta
  charSegments : List SegMeta
  addedIds : List Nat
  deletedIds : List Nat
  deriving Repr, DecidableEq

/-- The engine state. -/
structure EngineState where
  wordSegments : List SegMeta
  charSegments : List SegMeta
  addedIds : List Nat
  deletedIds : List Nat
  wordCache : List UInt8
  charCache : List UInt8
  segFiles : List (String × List TokDoc)
  inBatch : Bool
  pendingWord : Nat
  pendingChar : Nat
  savedMeta : Option MetaSnapshot
  deriving Repr, DecidableEq

/-- A freshly constructed engine over an empty base directory. -/
def initialState : EngineState := ⟨[], [], [], [], [], [], [], false, 0, 0, none⟩

/-- JS `Set.add`: append when absent (insertion order preserved). -/
def setInsert (s : List Nat) (x : Nat) : List Nat := if x ∈ s then s else s ++ [x]

/-- JS `Set.delete`. -/
def setErase (s : List Nat) (x : Nat) : List Nat := s.filter fun y => y ≠ x

/-- Update the segment-file map (`storage.write` replaces a file). -/
def assocSet : List (String × List TokDoc) → String → List TokDoc →
    List (String × List TokDoc)
  | [], k, v => [(k, v)]
  | (k', v') :: rest, k, v =>
    if k' = k then (k', v) :: rest else (k', v') :: assocSet rest k v

/-- Look a segment file up by filename. -/
def assocGet : List (String × List TokDoc) → String → Option (List TokDoc)
  | [], _ => none
  | (k', v') :: rest, k => if k' = k then some v' else assocGet rest k

/-- `MetaManager.getSegments(type)`. -/
def segmentsOf (s : EngineState) : IndexType → List SegMeta
  | .word => s.wordSegments
  | .char => s.charSegments

/-- The log file of an index type (`word_cache.bin` / `char_cache.bin`). -/
def cacheOf (s : EngineState) : IndexType → List UInt8
  | .word => s.wordCache
  | .char => s.charCache

/-- The per-type segment token threshold. -/
def thresholdOf (cfg : EngineConfig) : IndexType → Nat
  | .word => cfg.wordSegmentTokenThreshold
  | .char => cfg.charSegmentTokenThreshold

/-- The per-type minimum token count for materializing a segment. -/
def minSaveOf (cfg : EngineConfig) : IndexType → Nat
  | .word => cfg.minWordTokenSave
  | .char => cfg.minCharTokenSave

/-- The name of an index type as used in filenames. -/
def typeName : IndexType → String
  | .word => "word"
  | .char => "char"

/-- The generated segment filename: `{type}_seg_{n}.bin`. -/
def segFileName (ty : IndexType) (n : Nat) : String :=
  typeName ty ++ "_seg_" ++ toString n ++ ".bin"

/-- Replace one type's segment catalog. -/
def setSegments (s : EngineState) (ty : IndexType) (segs : List SegMeta) :
    EngineState :=
  match ty with
  | .word => { s with wordSegments := segs }
  | .char => { s with charSegments := segs }

/-- `MetaManager.updateSegment`: push a new descriptor when `isNew`,
otherwise mutate the tail descriptor's `end` and `tokenCount` in place when
its filename is the target. -/
def updateSegmentList (segs : List SegMeta) (filename : String)
    (start stop tokenCount : Nat) (isNew : Bool) : List SegMeta :=
  if isNew then segs ++ [⟨filename, start, stop, tokenCount⟩]
  else
    match segs.getLast? with
    | some last =>
      if last.filename = filename then
        segs.dropLast ++ [{ last with stop := stop, tokenCount := tokenCount }]
      else segs
    | none => segs

/-- `updateSegment` lifted to the engine state. -/
def updateSegment (s : EngineState) (ty : IndexType) (filename : String)
    (start stop tokenCount : Nat) (isNew : Bool) : EngineState :=
  setSegments s ty
    (updateSegmentList (segmentsOf s ty) filename start stop tokenCount isNew)

/-- `MetaManager.save`: persist the meta snapshot. -/
def saveMeta (s : EngineState) : EngineState :=
  { s with savedMeta := some (MetaSnapshot.mk s.wordSegments s.charSegments
      s.addedIds s.deletedIds) }

/-- The target-segment decision of `#processSegmentLogic`: result is
`(targetSegmentName, startOffset, isNew, newTokenCountTotal)`. -/
def segmentDecision (threshold : Nat) (nextName : String)
    (last : Option SegMeta) (addedTokenCount : Nat) :
    String × Nat × Bool × Nat :=
  match last with
  | none => (nextName, 0, true, addedTokenCount)
  | some l =>
    if l.tokenCount ≥ threshold ∨ l.tokenCount + addedTokenCount ≥ threshold then
      (nextName, l.stop, true, addedTokenCount)
    else (l.filename, l.start, false, l.tokenCount + addedTokenCount)

/-- `#processSegmentLogic(type, addedTokenCount)`: decide the target
segment; below the type's `minSave`, only update the catalog descriptor;
otherwise read the log range `[startOffset, cacheSize)`, build and save the
segment file, and update the descriptor. -/
def processSegmentLogic (cfg : EngineConfig) (dec : List UInt8 → String)
    (s : EngineState) (ty : IndexType) (addedTokenCount : Nat) : EngineState :=
  let cache := cacheOf s ty
  let currentCacheSize := cache.length
  let lastSegInfo := (segmentsOf s ty).getLast?
  let nextName := segFileName ty ((segmentsOf s ty).length + 1)
  let d := segmentDecision (thresholdOf cfg ty) nextName lastSegInfo addedTokenCount
  if d.2.2.2 < minSaveOf cfg ty then
    updateSegment s ty d.1 d.2.1 currentCacheSize d.2.2.2 d.2.2.1
  else
    let docsToBuild := parseDocs dec (cache.drop d.2.1)
    let s1 := { s with segFiles := assocSet s.segFiles d.1 docsToBuild }
    updateSegment s1 ty d.1 d.2.1 currentCacheSize d.2.2.2 d.2.2.1

/-- Split tokens by length: `> 1` → word, `= 1` → char, empty discarded
(the source reads JS `t.length`, UTF-16 code units; code-point length
agrees on every token without surrogate pairs). -/
def splitTokens (raw : List String) : List String × List String :=
  (raw.filter fun t => t.length > 1, raw.filter fun t => t.length = 1)

/-- The per-document tokenize-and-classify loop shared by both intake
paths, producing the word and char batches in document order. -/
def buildBatches (tok : Doc → List String) (docs : List Doc) :
    List TokDoc × List TokDoc :=
  docs.foldl
    (fun acc doc =>
      let raw := tok doc
      let wt := (splitTokens raw).1
      let ct := (splitTokens raw).2
      let acc1 := if wt ≠ [] then (acc.1 ++ [⟨doc.id, wt⟩], acc.2) else acc
      if ct ≠ [] then (acc1.1, acc1.2 ++ [⟨doc.id, ct⟩]) else acc1)
    ([], [])

/-- The validation of strict `addDocuments`: the first document whose id is
in `deletedIds` or already in `addedIds` (both checked against the sets as
they were at entry — `addedIds` is only updated after the appends) throws;
the throw happens in the classification loop, before any state mutation. -/
def validateStrict (s : EngineState) (docs : List Doc) : Option String :=
  docs.findSome? fun doc =>
    if doc.id ∈ s.deletedIds then
      some ("Document ID " ++ toString doc.id ++
        " has been deleted and cannot be re-added.")
    else if doc.id ∈ s.addedIds then
      some ("Document ID " ++ toString doc.id ++ " already exists.")
    else none

/-- Total number of tokens in a batch (the `addedWordTokens` /
`addedCharTokens` sums). -/
def tokensTotal (b : List TokDoc) : Nat := (b.map fun d => d.tokens.length).sum

/-- Phases 2–4 shared by `addDocuments` and `addDocumentsIfMissing`: append
the non-empty word/char batches to their logs (one `appendBatch` each), add
the ids to `addedIds`, then either accumulate the pending token counts (in
batch mode) or run segment processing once per non-zero type and save. -/
def commitIntake (cfg : EngineConfig) (enc : String → List UInt8)
    (dec : List UInt8 → String) (s : EngineState)
    (ids : List Nat) (wordBatch charBatch : List TokDoc) : EngineState :=
  let addedWord := tokensTotal wordBatch
  let addedChar := tokensTotal charBatch
  let s1 := if wordBatch ≠ [] then
      { s with wordCache := appendBatch enc s.wordCache wordBatch } else s
  let s2 := if charBatch ≠ [] then
      { s1 with charCache := appendBatch enc s1.charCache charBatch } else s1
  let s3 := { s2 with addedIds := ids.foldl setInsert s2.addedIds }
  if s3.inBatch then
    { s3 with pendingWord := s3.pendingWord + addedWord,
              pendingChar := s3.pendingChar + addedChar }
  else
    let s4 := if addedWord > 0 then processSegmentLogic cfg dec s3 .word addedWord
      else s3
    let s5 := if addedChar > 0 then processSegmentLogic cfg dec s4 .char addedChar
      else s4
    saveMeta s5

/-- Strict `addDocuments`: the resulting state, and the thrown error when a
document's id conflicts.  A throw happens during validation, before any
mutation, so the state component then equals the input state. -/
def addDocuments (cfg : EngineConfig) (tok : Doc → List String)
    (enc : String → List UInt8) (dec : List UInt8 → String)
    (s : EngineState) (docs : List Doc) : EngineState × Option String :=
  if docs = [] then (s, none)
  else
    match validateStrict s docs with
    | some e => (s, some e)
    | none =>
      let b := buildBatches tok docs
      (commitIntake cfg enc dec s (docs.map (·.id)) b.1 b.2, none)

/-- `addDocumentsIfMissing`: skip documents whose id is deleted or already
added (against the entry-time sets), same pipeline for the rest. -/
def addDocumentsIfMissing (cfg : EngineConfig) (tok : Doc → List String)
    (enc : String → List UInt8) (dec : List UInt8 → String)
    (s : EngineState) (docs : List Doc) : EngineState :=
  if docs = [] then s
  else
    let newDocs := docs.filter fun doc =>
      decide (doc.id ∉ s.deletedIds) && decide (doc.id ∉ s.addedIds)
    if newDocs = [] then s
    else
      let b := buildBatches tok newDocs
      commitIntake cfg enc dec s (newDocs.map (·.id)) b.1 b.2

/-- `removeDocument(id)`: add the id to `deletedIds`, remove it from
`addedIds`, save. -/
def removeDocument (s : EngineState) (id : Nat) : EngineState :=
  saveMeta { s with deletedIds := setInsert s.deletedIds id,
                    addedIds := setErase s.addedIds id }

/-- `hasDocument(id)`: ever added — including deleted
(`isAdded(id) ∨ isDeleted(id)`). -/
def hasDocument (s : EngineState) (id : Nat) : Bool :=
  decide (id ∈ s.addedIds) || decide (id ∈ s.deletedIds)

/-- `startBatch()`. -/
def startBatch (s : EngineState) : EngineState :=
  { s with inBatch := true, pendingWord := 0, pendingChar := 0 }

/-- `endBatch()`: leave batch mode, process the pending counts per
non-zero type, reset them, save. -/
def endBatch (cfg : EngineConfig) (dec : List UInt8 → String)
    (s : EngineState) : EngineState :=
  let s0 := { s with inBatch := false }
  let s1 := if s0.pendingWord > 0 then
      processSegmentLogic cfg dec s0 .word s0.pendingWord else s0
  let s2 := if s1.pendingChar > 0 then
      processSegmentLogic cfg dec s1 .char s1.pendingChar else s1
  saveMeta { s2 with pendingWord := 0, pendingChar := 0 }

/-- `clearAll()`: wipe the storage, drop the segment handles, reset the
meta, leave batch mode. -/
def clearAll (_s : EngineState) : EngineState := initialState

/-- `IResult`: `{id, score, tokens}` (scores as exact rationals). -/
structure SearchResult where
  id : Nat
  score : ℚ
  tokens : List String
  deriving Repr, DecidableEq

/-- `docMatches.get(id)`. -/
def matchesGet : List (Nat × ℚ × List String) → Nat → Option (ℚ × List String)
  | [], _ => none
  | (k, v) :: rest, i => if k = i then some v else matchesGet rest i

/-- The `else` branch of a hit: `match.score += termScore;
match.tokens.add(term)`. -/
def matchesUpdate : List (Nat × ℚ × List String) → Nat → ℚ → String →
    List (Nat × ℚ × List String)
  | [], _, _, _ => []
  | (k, sc, toks) :: rest, i, ts, term =>
    if k = i then
      (k, sc + ts, if term ∈ toks then toks else toks ++ [term]) :: rest
    else (k, sc, toks) :: matchesUpdate rest i ts term

/-- One hit id of one term: skip tombstoned ids; a first hit creates the
entry with `score = 0` and the term in its match set; a repeated hit adds
`termScore` and the term. -/
def applyHit (deleted : List Nat) (term : String) (termScore : ℚ)
    (m : List (Nat × ℚ × List String)) (id : Nat) :
    List (Nat × ℚ × List String) :=
  if id ∈ deleted then m
  else if (matchesGet m id).isSome then matchesUpdate m id termScore term
  else m ++ [(id, 0, [term])]

/-- The hits of one term in one segment file: `IndexSegment64.search` over
the index that `buildAndSave` built from the file's documents. -/
def segmentHits (hashF : String → Nat) (content : List TokDoc)
    (term : String) : List Nat :=
  buildAndSearch hashF content term

/-- The `processTerms` loop of `search`: for each catalogued segment of the
type (skipping filenames with no loaded file), for each term, fold the hits
into `docMatches` with the term's score `1 + 0.1 × termLength`. -/
def processTermsFold (hashF : String → Nat) (deleted : List Nat)
    (files : List (String × List TokDoc)) (segs : List SegMeta)
    (terms : List String) (m0 : List (Nat × ℚ × List String)) :
    List (Nat × ℚ × List String) :=
  segs.foldl
    (fun m meta =>
      match assocGet files meta.filename with
      | none => m
      | some content =>
        terms.foldl
          (fun m term =>
            (segmentHits hashF content term).foldl
              (applyHit deleted term (1 + term.length * (1 / 10 : ℚ))) m)
          m)
    m0

/-- The descending-score comparator of the final sort
(`(a, b) => b.score - a.score`, a stable sort; as a total preorder every
stable sort produces the same list, modelled by `insertionSort`). -/
def resultLE (a b : SearchResult) : Prop := b.score ≤ a.score

instance : DecidableRel resultLE := fun a b =>
  inferInstanceAs (Decidable (b.score ≤ a.score))

/-- `search(query, limit?)`: tokenize the query with the search tokenizer,
split into word and char terms, process the word then the char segments,
materialize `(id, score, tokens)`, sort by score descending, truncate to
`limit` when supplied and positive. -/
def engineSearch (hashF : String → Nat) (stok : String → List String)
    (s : EngineState) (query : String) (limit : Option Nat) :
    List SearchResult :=
  let raw := stok query
  let wordTerms := raw.filter fun t => t.length > 1
  let charTerms := raw.filter fun t => t.length = 1
  let m1 := processTermsFold hashF s.deletedIds s.segFiles s.wordSegments
    wordTerms []
  let m2 := processTermsFold hashF s.deletedIds s.segFiles s.charSegments
    charTerms m1
  let results := List.insertionSort resultLE
    (m2.map fun p => SearchResult.mk p.1 p.2.1 p.2.2)
  match limit with
  | some l => if l > 0 then results.take l else results
  | none => results

/-- The public mutating operations of the engine. -/
inductive EngineOp
  | add (docs : List Doc)
  | addIfMissing (docs : List Doc)
  | remove (id : Nat)
  | startB
  | endB
  | clear
  deriving Repr, DecidableEq

/-- Apply one public operation (a strict `add` that throws leaves the state
unchanged). -/
def applyOp (cfg : EngineConfig) (tok : Doc → List String)
    (enc : String → List UInt8) (dec : List UInt8 → String)
    (s : EngineState) : EngineOp → EngineState
  | .add docs => (addDocuments cfg tok enc dec s docs).1
  | .addIfMissing docs => addDocumentsIfMissing cfg tok enc dec s docs
  | .remove id => removeDocument s id
  | .startB => startBatch s
  | .endB => endBatch cfg dec s
  | .clear => clearAll s

/-- Run a sequence of operations from a given state. -/
def runOpsFrom (cfg : EngineConfig) (tok : Doc → List String)
    (enc : String → List UInt8) (dec : List UInt8 → String)
    (s : EngineState) (ops : List EngineOp) : EngineState :=
  ops.foldl (applyOp cfg tok enc dec) s

/-- Run a sequence of operations on a fresh engine. -/
def runOps (cfg : EngineConfig) (tok : Doc → List String)
    (enc : String → List UInt8) (dec : List UInt8 → String)
    (ops : List EngineOp) : EngineState :=
  runOpsFrom cfg tok enc dec initialState ops

/-- A character kept by the fallback default tokenizer:
`[a-z0-9一-龥]`. -/
def isTokenChar (c : Char) : Bool :=
  (decide ('a' ≤ c) && decide (c ≤ 'z')) ||
    (decide ('0' ≤ c) && decide (c ≤ '9')) ||
    (decide (0x4e00 ≤ c.toNat) && decide (c.toNat ≤ 0x9fa5))

/-- The run-splitting effect of
`split(/[^a-z0-9一-龥]+/g).filter(t => t.length > 0)` on a lower-cased
character sequence: maximal runs of token characters, separators dropped,
empty pieces discarded; `cur` holds the current run reversed. -/
def tokenizeAux : List Char → List Char → List String
  | [], cur => if cur.isEmpty then [] else [String.mk cur.reverse]
  | c :: rest, cur =>
    if isTokenChar c then tokenizeAux rest (c :: cur)
    else if cur.isEmpty then tokenizeAux rest []
    else String.mk cur.reverse :: tokenizeAux rest []

/-- The default tokenizer's universal fallback branch:
`text.toLowerCase().split(/[^a-z0-9一-龥]+/g).filter(t => t.length > 0)`
(on the inputs of the concrete theorems below, the `Intl.Segmenter` branch
produces the same tokens). -/
def defaultTokenize (text : String) : List String :=
  tokenizeAux (text.data.map Char.toLower) []

/-- The default indexing tokenizer applied to a document. -/
def defaultDocTokenize (d : Doc) : List String := defaultTokenize d.text

/-- A concrete stand-in hash for the closed evaluations below (the segment
search answers are hash-independent — see the C1 theorem, proven for every
hash function). -/
def sumHash (s : String) : Nat := (s.data.map Char.toNat).sum

/-- The catalog chain property of one index type, from a previous end
offset: the next descriptor starts where the previous one ended, spans a
well-formed byte range, ends within the log file, and the rest chains on
from its end. -/
def chainedFrom : Nat → Nat → List SegMeta → Prop
  | _, _, [] => True
  | prevEnd, size, seg :: rest =>
    seg.start = prevEnd ∧ seg.start ≤ seg.stop ∧ seg.stop ≤ size ∧
      chainedFrom seg.stop size rest

instance instDecChainedFrom :
    (p size : Nat) → (segs : List SegMeta) → Decidable (chainedFrom p size segs)
  | _, _, [] => .isTrue trivial
  | p, size, seg :: rest =>
    have := instDecChainedFrom seg.stop size rest
    inferInstanceAs (Decidable (_ ∧ _ ∧ _ ∧ _))

/-- Where the chain of descriptors ends (the tail's `end`, or the previous
end for an empty catalog). -/
def chainEnd : Nat → List SegMeta → Nat
  | p, [] => p
  | _, seg :: rest => chainEnd seg.stop rest

/-- The catalog invariant of claim C6, for both index types: the first
descriptor starts at byte 0, `segments[i].start = segments[i-1].end`, and
every descriptor's `end` is bounded by the size of that type's log file. -/
def catalogOk (s : EngineState) : Prop :=
  chainedFrom 0 s.wordCache.length s.wordSegments ∧
    chainedFrom 0 s.charCache.length s.charSegments

instance (s : EngineState) : Decidable (catalogOk s) :=
  inferInstanceAs (Decidable (_ ∧ _))

/-- The catalog evolution across one state transition, per claim C6's
"non-decreasing over time": well-formedness is preserved, a type's catalog
never loses descriptors, and the `end` of each existing descriptor never
decreases. -/
def catalogStep (u v : EngineState) : Prop :=
  (catalogOk u → catalogOk v) ∧
  ∀ ty : IndexType,
    (segmentsOf u ty).length ≤ (segmentsOf v ty).length ∧
    (catalogOk u → ∀ i, i < (segmentsOf u ty).length →
      ((segmentsOf u ty).getD i ⟨"", 0, 0, 0⟩).stop ≤
        ((segmentsOf v ty).getD i ⟨"", 0, 0, 0⟩).stop)

end GsSearch

namespace GsSearch

/-! ## Theorems about the intermediate cache -/

theorem readU16_le16 (n : Nat) (rest : List UInt8) (h : n < 65536) :
    readU16 (le16 n ++ rest) = n := by
  have h1 : n % 256 < 256 := Nat.mod_lt _ (by norm_num)
  have h2 : n / 256 % 256 < 256 := Nat.mod_lt _ (by norm_num)
  simp only [le16, readU16, List.cons_append, List.nil_append, List.getD,
    List.get?_cons_zero, List.get?_cons_succ, Option.getD_some,
    UInt8.toNat_ofNat_of_lt h1, UInt8.toNat_ofNat_of_lt h2]
  omega

theorem readU32_le32 (n : Nat) (rest : List UInt8) (h : n < 4294967296) :
    readU32 (le32 n ++ rest) = n := by
  have h1 : n % 256 < 256 := Nat.mod_lt _ (by norm_num)
  have h2 : n / 256 % 256 < 256 := Nat.mod_lt _ (by norm_num)
  have h3 : n / 65536 % 256 < 256 := Nat.mod_lt _ (by norm_num)
  have h4 : n / 16777216 % 256 < 256 := Nat.mod_lt _ (by norm_num)
  simp only [le32, readU32, List.cons_append, List.nil_append, List.getD,
    List.get?_cons_zero, List.get?_cons_succ, Option.getD_some,
    UInt8.toNat_ofNat_of_lt h1, UInt8.toNat_ofNat_of_lt h2,
    UInt8.toNat_ofNat_of_lt h3, UInt8.toNat_ofNat_of_lt h4]
  omega

@[simp] theorem le16_length (n : Nat) : (le16 n).length = 2 := rfl

@[simp] theorem le32_length (n : Nat) : (le32 n).length = 4 := rfl

theorem parseTokens_frames (enc : String → List UInt8) (dec : List UInt8 → String)
    (tokens : List String) (tail : List UInt8)
    (hlen : ∀ t ∈ tokens, (enc t).length ≤ 65535)
    (hdec : ∀ t ∈ tokens, dec (enc t) = t) :
    parseTokens dec tokens.length
      ((tokens.map fun t =>
        le16 (encodeToken enc t).length ++ encodeToken enc t).flatten ++ tail) =
      (tokens, tail) := by
  induction tokens with
  | nil => simp [parseTokens]
  | cons t ts ih =>
    have ht : encodeToken enc t = enc t := by
      have := hlen t (by simp)
      simp only [encodeToken]
      rw [if_neg (by omega)]
    have hlt : (enc t).length < 65536 := lt_of_le_of_lt (hlen t (by simp)) (by norm_num)
    simp only [List.map_cons, List.flatten_cons, List.length_cons, parseTokens, ht,
      List.append_assoc]
    rw [if_neg (by simp [le16]), readU16_le16 _ _ hlt]
    have hdrop2 :
        (le16 (enc t).length ++ (enc t ++ ((ts.map fun t =>
          le16 (encodeToken enc t).length ++ encodeToken enc t).flatten ++ tail))).drop 2 =
          enc t ++ ((ts.map fun t =>
            le16 (encodeToken enc t).length ++ encodeToken enc t).flatten ++ tail) := by
      rw [show (2 : Nat) = (le16 (enc t).length).length from rfl, List.drop_left]
    rw [hdrop2]
    rw [if_neg (by simp)]
    rw [List.take_left, List.drop_left]
    rw [ih (fun u hu => hlen u (by simp [hu])) (fun u hu => hdec u (by simp [hu]))]
    simp [hdec t (by simp)]

theorem parseTokens_rest_length_le (dec : List UInt8 → String) :
    ∀ (c : Nat) (b : List UInt8), (parseTokens dec c b).2.length ≤ b.length := by
  intro c
  induction c with
  | zero => intro b; simp [parseTokens]
  | succ c ih =>
    intro b
    simp only [parseTokens]
    split
    · simp
    · split
      · simp only [List.length_drop]
        omega
      · simp only
        refine le_trans (ih ((b.drop 2).drop (readU16 b))) ?_
        simp only [List.length_drop]
        omega

theorem skipSep_length_le (b : List UInt8) : (skipSep b).length ≤ b.length := by
  unfold skipSep
  split
  · simp
  · exact le_refl _

theorem parseDocsAux_fuel (dec : List UInt8 → String) :
    ∀ (f g : Nat) (b : List UInt8), b.length ≤ f → b.length ≤ g →
      parseDocsAux dec f b = parseDocsAux dec g b := by
  intro f
  induction f with
  | zero =>
    intro g b hf _hg
    have hb : b = [] := List.eq_nil_of_length_eq_zero (by omega)
    subst hb
    cases g with
    | zero => rfl
    | succ g => simp [parseDocsAux]
  | succ f ih =>
    intro g b hf hg
    by_cases h8 : b.length < 8
    · cases g with
      | zero =>
        have hb : b = [] := List.eq_nil_of_length_eq_zero (by omega)
        subst hb
        simp [parseDocsAux]
      | succ g => simp [parseDocsAux, h8]
    · cases g with
      | zero => omega
      | succ g =>
        simp only [parseDocsAux, if_neg h8]
        congr 1
        have hr := parseTokens_rest_length_le dec (readU32 (b.drop 4)) (b.drop 8)
        have hs := skipSep_length_le
          (parseTokens dec (readU32 (b.drop 4)) (b.drop 8)).2
        simp only [List.length_drop] at hr
        exact ih g _ (by omega) (by omega)

theorem parseDocs_encodeDoc (enc : String → List UInt8) (dec : List UInt8 → String)
    (d : TokDoc) (rest : List UInt8)
    (hid : d.id < 4294967296) (hcount : d.tokens.length < 4294967296)
    (hlen : ∀ t ∈ d.tokens, (enc t).length ≤ 65535)
    (hdec : ∀ t ∈ d.tokens, dec (enc t) = t) :
    parseDocs dec (encodeDoc enc d ++ rest) = d :: parseDocs dec rest := by
  unfold parseDocs
  have hlen8 : 9 + rest.length ≤ (encodeDoc enc d ++ rest).length := by
    have henc : (encodeDoc enc d).length = 8 + ((d.tokens.map fun t =>
        le16 (encodeToken enc t).length ++ encodeToken enc t).flatten).length + 1 := by
      simp [encodeDoc]
      omega
    simp only [List.length_append]
    omega
  obtain ⟨M, hM⟩ : ∃ M, (encodeDoc enc d ++ rest).length = M + 1 :=
    ⟨(encodeDoc enc d ++ rest).length - 1, by omega⟩
  rw [hM]
  simp only [parseDocsAux]
  rw [if_neg (by omega)]
  simp only [encodeDoc, List.append_assoc]
  rw [readU32_le32 _ _ hid]
  have hdrop4 : (le32 d.id ++ (le32 d.tokens.length ++ ((d.tokens.map fun t =>
      le16 (encodeToken enc t).length ++ encodeToken enc t).flatten ++
        ([0x1E] ++ rest)))).drop 4 =
      le32 d.tokens.length ++ ((d.tokens.map fun t =>
        le16 (encodeToken enc t).length ++ encodeToken enc t).flatten ++
          ([0x1E] ++ rest)) := by
    rw [show (4 : Nat) = (le32 d.id).length from rfl, List.drop_left]
  have hdrop8 : (le32 d.id ++ (le32 d.tokens.length ++ ((d.tokens.map fun t =>
      le16 (encodeToken enc t).length ++ encodeToken enc t).flatten ++
        ([0x1E] ++ rest)))).drop 8 =
      (d.tokens.map fun t =>
        le16 (encodeToken enc t).length ++ encodeToken enc t).flatten ++
          ([0x1E] ++ rest) := by
    rw [← List.append_assoc]
    rw [show (8 : Nat) = (le32 d.id ++ le32 d.tokens.length).length from rfl,
      List.drop_left]
  rw [hdrop4, readU32_le32 _ _ hcount, hdrop8]
  rw [parseTokens_frames enc dec d.tokens ([0x1E] ++ rest) hlen hdec]
  simp only [skipSep, List.cons_append, List.nil_append, List.head?_cons,
    Option.some.injEq, eq_self_iff_true, if_true, List.drop_succ_cons,
    List.drop_zero]
  congr 1
  exact parseDocsAux_fuel dec M rest.length rest (by omega) (le_refl _)

@[simp] theorem parseDocs_nil (dec : List UInt8 → String) : parseDocs dec [] = [] :=
  rfl

theorem parseDocs_encodedList (enc : String → List UInt8) (dec : List UInt8 → String)
    (docs : List TokDoc)
    (hid : ∀ d ∈ docs, d.id < 4294967296)
    (hcount : ∀ d ∈ docs, d.tokens.length < 4294967296)
    (hlen : ∀ d ∈ docs, ∀ t ∈ d.tokens, (enc t).length ≤ 65535)
    (hdec : ∀ d ∈ docs, ∀ t ∈ d.tokens, dec (enc t) = t) :
    parseDocs dec ((docs.map (encodeDoc enc)).flatten) = docs := by
  induction docs with
  | nil => simp
  | cons d ds ih =>
    simp only [List.map_cons, List.flatten_cons]
    rw [parseDocs_encodeDoc enc dec d _ (hid d (by simp)) (hcount d (by simp))
      (hlen d (by simp)) (hdec d (by simp))]
    rw [ih (fun x hx => hid x (by simp [hx])) (fun x hx => hcount x (by simp [hx]))
      (fun x hx => hlen x (by simp [hx])) (fun x hx => hdec x (by simp [hx]))]

theorem foldl_appendBatch (enc : String → List UInt8)
    (batches : List (List TokDoc)) (acc : List UInt8) :
    batches.foldl (appendBatch enc) acc =
      acc ++ ((batches.flatten).map (encodeDoc enc)).flatten := by
  induction batches generalizing acc with
  | nil => simp
  | cons b bs ih =>
    simp only [List.foldl_cons, List.flatten_cons, appendBatch]
    rw [ih]
    simp [List.map_append, List.append_assoc]

/-! ## Theorems about the 64-bit index segment: building the buckets -/

theorem lookupB_bucketPush (bs : List (String × List Nat)) (t : String) (i : Nat)
    (u : String) :
    lookupB (bucketPush bs t i) u =
      if u = t then some ((lookupB bs t).getD [] ++ [i]) else lookupB bs u := by
  induction bs with
  | nil =>
    by_cases hu : u = t <;> simp_all [bucketPush, lookupB, eq_comm]
  | cons p rest ih =>
    obtain ⟨v, ps⟩ := p
    by_cases hv : v = t <;> by_cases hu : u = t <;> by_cases hw : v = u <;>
      simp_all [bucketPush, lookupB, eq_comm]

theorem keys_bucketPush (bs : List (String × List Nat)) (t : String) (i : Nat) :
    (bucketPush bs t i).map Prod.fst =
      if t ∈ bs.map Prod.fst then bs.map Prod.fst else bs.map Prod.fst ++ [t] := by
  induction bs with
  | nil => simp [bucketPush]
  | cons p rest ih =>
    obtain ⟨v, ps⟩ := p
    by_cases hv : v = t
    · subst hv
      simp [bucketPush]
    · simp only [bucketPush, if_neg hv, List.map_cons, ih]
      by_cases ht : t ∈ rest.map Prod.fst
      · simp [ht, Ne.symm hv]
      · simp [ht, Ne.symm hv]

theorem nodup_keys_bucketPush (bs : List (String × List Nat)) (t : String) (i : Nat)
    (h : (bs.map Prod.fst).Nodup) : ((bucketPush bs t i).map Prod.fst).Nodup := by
  rw [keys_bucketPush]
  split
  · exact h
  · next ht => simpa [List.nodup_append, ht] using h

theorem lookupB_addDocTokens (i : Nat) (ts : List String)
    (bs : List (String × List Nat)) (seen : List String) (u : String) :
    lookupB (addDocTokens i ts (bs, seen)).1 u =
      if u ∈ ts ∧ u ∉ seen then some ((lookupB bs u).getD [] ++ [i])
      else lookupB bs u := by
  induction ts generalizing bs seen with
  | nil => simp [addDocTokens]
  | cons t ts ih =>
    by_cases hseen : t ∈ seen
    · rw [show addDocTokens i (t :: ts) (bs, seen) = addDocTokens i ts (bs, seen) by
        simp [addDocTokens, hseen]]
      rw [ih]
      by_cases hu : u = t
      · subst hu
        simp [hseen]
      · simp [hu]
    · rw [show addDocTokens i (t :: ts) (bs, seen) =
          addDocTokens i ts (bucketPush bs t i, t :: seen) by
        simp [addDocTokens, hseen]]
      rw [ih]
      by_cases hu : u = t
      · subst hu
        rw [if_neg (by simp), lookupB_bucketPush, if_pos rfl,
          if_pos ⟨by simp, hseen⟩]
      · have hiff : (u ∈ ts ∧ u ∉ t :: seen) ↔ (u ∈ t :: ts ∧ u ∉ seen) := by
          simp only [List.mem_cons, not_or]
          constructor
          · rintro ⟨h1, h2, h3⟩
            exact ⟨Or.inr h1, h3⟩
          · rintro ⟨h1, h2⟩
            rcases h1 with h1 | h1
            · exact absurd h1 hu
            · exact ⟨h1, hu, h2⟩
        simp only [lookupB_bucketPush, if_neg hu]
        exact if_congr hiff rfl rfl

theorem nodup_keys_addDocTokens (i : Nat) (ts : List String)
    (bs : List (String × List Nat)) (seen : List String)
    (h : (bs.map Prod.fst).Nodup) :
    (((addDocTokens i ts (bs, seen)).1).map Prod.fst).Nodup := by
  induction ts generalizing bs seen with
  | nil => simpa [addDocTokens] using h
  | cons t ts ih =>
    by_cases hseen : t ∈ seen
    · rw [show addDocTokens i (t :: ts) (bs, seen) = addDocTokens i ts (bs, seen) by
        simp [addDocTokens, hseen]]
      exact ih _ _ h
    · rw [show addDocTokens i (t :: ts) (bs, seen) =
          addDocTokens i ts (bucketPush bs t i, t :: seen) by
        simp [addDocTokens, hseen]]
      exact ih _ _ (nodup_keys_bucketPush bs t i h)

theorem lookupB_addDocToBuckets (bs : List (String × List Nat)) (d : TokDoc)
    (u : String) :
    lookupB (addDocToBuckets bs d) u =
      if u ∈ d.tokens then some ((lookupB bs u).getD [] ++ [d.id])
      else lookupB bs u := by
  unfold addDocToBuckets
  rw [lookupB_addDocTokens]
  simp

theorem lookupB_foldl (docs : List TokDoc) (bs : List (String × List Nat))
    (u : String) :
    lookupB (docs.foldl addDocToBuckets bs) u =
      if docs.any (fun d => u ∈ d.tokens) then
        some ((lookupB bs u).getD [] ++ (docs.filter (fun d => u ∈ d.tokens)).map (·.id))
      else lookupB bs u := by
  induction docs generalizing bs with
  | nil => simp
  | cons d ds ih =>
    simp only [List.foldl_cons, List.any_cons, List.filter_cons]
    rw [ih, lookupB_addDocToBuckets]
    by_cases hd : u ∈ d.tokens
    · by_cases hds : (ds.any fun d => decide (u ∈ d.tokens)) = true
      · simp [hd, hds, List.append_assoc]
      · have hfil : ds.filter (fun d => decide (u ∈ d.tokens)) = [] := by
          rw [List.filter_eq_nil_iff]
          intro a ha hm
          exact hds (List.any_eq_true.mpr ⟨a, ha, hm⟩)
        simp [hd, hds, hfil]
    · simp [hd]

theorem lookupB_buildBuckets (docs : List TokDoc) (u : String) :
    lookupB (buildBuckets docs) u =
      if docs.any (fun d => u ∈ d.tokens) then
        some ((docs.filter (fun d => u ∈ d.tokens)).map (·.id))
      else none := by
  unfold buildBuckets
  rw [lookupB_foldl]
  simp [lookupB]

theorem nodup_keys_buildBuckets (docs : List TokDoc) :
    ((buildBuckets docs).map Prod.fst).Nodup := by
  unfold buildBuckets
  have : ∀ (ds : List TokDoc) (bs : List (String × List Nat)),
      (bs.map Prod.fst).Nodup → ((ds.foldl addDocToBuckets bs).map Prod.fst).Nodup := by
    intro ds
    induction ds with
    | nil => intro bs h; simpa using h
    | cons d ds ih =>
      intro bs h
      simp only [List.foldl_cons]
      exact ih _ (nodup_keys_addDocTokens d.id d.tokens bs [] h)
  exact this docs [] (by simp)

theorem lookupB_eq_some_mem (bs : List (String × List Nat)) (u : String)
    (ps : List Nat) (h : lookupB bs u = some ps) : (u, ps) ∈ bs := by
  induction bs with
  | nil => simp [lookupB] at h
  | cons p rest ih =>
    obtain ⟨v, qs⟩ := p
    by_cases hv : v = u
    · subst hv
      simp only [lookupB, eq_self_iff_true, if_true, Option.some.injEq] at h
      subst h
      exact List.mem_cons_self _ _
    · simp only [lookupB, if_neg hv] at h
      exact List.mem_cons_of_mem _ (ih h)

/-! ## Theorems about the 64-bit index segment: the sorted dictionary -/

theorem buildEntries_perm (hashF : String → Nat) (docs : List TokDoc) :
    (buildEntries hashF docs).Perm
      ((buildBuckets docs).map fun p => DictEntry.mk p.1 (hashF p.1) p.2) :=
  List.perm_insertionSort _ _

theorem buildEntries_sorted_hash (hashF : String → Nat) (docs : List TokDoc) :
    (buildEntries hashF docs).Pairwise (fun a b => a.hash ≤ b.hash) := by
  have h := List.sorted_insertionSort entryLE
    ((buildBuckets docs).map fun p => DictEntry.mk p.1 (hashF p.1) p.2)
  refine h.imp ?_
  intro a b hab
  rcases hab with hab | ⟨hab, _⟩
  · exact le_of_lt hab
  · exact le_of_eq hab

theorem buildEntries_hash_consistent (hashF : String → Nat) (docs : List TokDoc) :
    ∀ e ∈ buildEntries hashF docs, e.hash = hashF e.token := by
  intro e he
  have hmem := (buildEntries_perm hashF docs).mem_iff.mp he
  obtain ⟨p, _, rfl⟩ := List.mem_map.mp hmem
  rfl

theorem buildEntries_tokens_nodup (hashF : String → Nat) (docs : List TokDoc) :
    ((buildEntries hashF docs).map (·.token)).Nodup := by
  have hperm : ((buildEntries hashF docs).map (·.token)).Perm
      (((buildBuckets docs).map fun p => DictEntry.mk p.1 (hashF p.1) p.2).map
        (·.token)) :=
    (buildEntries_perm hashF docs).map _
  rw [hperm.nodup_iff, List.map_map]
  have : ((fun e : DictEntry => e.token) ∘ fun p : String × List Nat =>
      DictEntry.mk p.1 (hashF p.1) p.2) = Prod.fst := rfl
  rw [this]
  exact nodup_keys_buildBuckets docs

theorem buildEntries_mem_of_lookupB (hashF : String → Nat) (docs : List TokDoc)
    (t : String) (ps : List Nat) (h : lookupB (buildBuckets docs) t = some ps) :
    DictEntry.mk t (hashF t) ps ∈ buildEntries hashF docs := by
  rw [(buildEntries_perm hashF docs).mem_iff]
  exact List.mem_map.mpr ⟨(t, ps), lookupB_eq_some_mem _ _ _ h, rfl⟩

/-! ## Theorems about the 64-bit index segment: `search` -/

theorem getEnt_eq (es : List DictEntry) (i : Int) (hl : i.toNat < es.length) :
    getEnt es i = es.get ⟨i.toNat, hl⟩ := by
  unfold getEnt
  exact List.getD_eq_get es default hl

theorem get_congr (es : List DictEntry) (a b : Nat) (ha : a < es.length)
    (hb : b < es.length) (hab : a = b) : es.get ⟨a, ha⟩ = es.get ⟨b, hb⟩ := by
  subst hab
  rfl

theorem sorted_hash_le (es : List DictEntry)
    (hs : es.Pairwise fun a b => a.hash ≤ b.hash)
    (i j : Nat) (hi : i < es.length) (hj : j < es.length) (hij : i ≤ j) :
    (es.get ⟨i, hi⟩).hash ≤ (es.get ⟨j, hj⟩).hash := by
  rcases Nat.lt_or_ge i j with hlt | hge
  · exact (List.pairwise_iff_get.mp hs) ⟨i, hi⟩ ⟨j, hj⟩ (Fin.mk_lt_mk.mpr hlt)
  · have : i = j := le_antisymm hij hge
    subst this
    exact le_refl _

theorem token_get_inj (es : List DictEntry) (huni : (es.map (·.token)).Nodup)
    (i j : Nat) (hi : i < es.length) (hj : j < es.length)
    (he : (es.get ⟨i, hi⟩).token = (es.get ⟨j, hj⟩).token) : i = j := by
  have hinj := List.nodup_iff_injective_get.mp huni
  have hilen : i < (es.map (·.token)).length := by simpa using hi
  have hjlen : j < (es.map (·.token)).length := by simpa using hj
  have hmap : (es.map (·.token)).get ⟨i, hilen⟩ = (es.map (·.token)).get ⟨j, hjlen⟩ := by
    rw [List.get_map, List.get_map]
    exact he
  have := hinj hmap
  exact congrArg Fin.val this

theorem findFirstMatch_succ (es : List DictEntry) (h : Nat) (n : Nat) :
    findFirstMatch es h (n + 1) =
      if (es.getD n default).hash = h then findFirstMatch es h n else n + 1 := rfl

theorem findFirstMatch_le (es : List DictEntry) (h : Nat) :
    ∀ i, findFirstMatch es h i ≤ i
  | 0 => le_refl _
  | j + 1 => by
    rw [findFirstMatch_succ]
    split
    · exact le_trans (findFirstMatch_le es h j) (Nat.le_succ j)
    · exact le_refl _

theorem findFirstMatch_run (es : List DictEntry) (h : Nat) :
    ∀ i j, findFirstMatch es h i ≤ j → j < i → (es.getD j default).hash = h := by
  intro i
  induction i with
  | zero => intro j _ hj; omega
  | succ n ih =>
    intro j hle hlt
    by_cases hn : (es.getD n default).hash = h
    · rw [findFirstMatch_succ, if_pos hn] at hle
      rcases Nat.lt_or_ge j n with hj | hj
      · exact ih j hle hj
      · have : j = n := by omega
        subst this
        exact hn
    · rw [findFirstMatch_succ, if_neg hn] at hle
      omega

theorem findFirstMatch_first (es : List DictEntry) (h : Nat) (i : Nat) :
    findFirstMatch es h i = 0 ∨
      (es.getD (findFirstMatch es h i - 1) default).hash ≠ h := by
  induction i with
  | zero => exact Or.inl rfl
  | succ n ih =>
    by_cases hn : (es.getD n default).hash = h
    · rw [findFirstMatch_succ, if_pos hn]
      exact ih
    · rw [findFirstMatch_succ, if_neg hn]
      exact Or.inr (by simpa using hn)

theorem scanRun_finds (es : List DictEntry) (term : String) (h : Nat)
    (k : Nat) (hk : k < es.length)
    (huni : (es.map (·.token)).Nodup)
    (htok : (es.get ⟨k, hk⟩).token = term) :
    ∀ n i, k - i = n → i ≤ k →
      (∀ j (hj : j < es.length), i ≤ j → j ≤ k → (es.get ⟨j, hj⟩).hash = h) →
      scanRun es term h i = (es.get ⟨k, hk⟩).postings := by
  intro n
  induction n with
  | zero =>
    intro i h0 hik hall
    have : i = k := by omega
    subst this
    unfold scanRun
    rw [show es.length - i = (es.length - (i + 1)) + 1 by omega]
    simp only [scanRunAux]
    rw [dif_pos hk]
    rw [if_neg (not_not_intro (hall i hk (le_refl _) (le_refl _)))]
    rw [if_pos htok]
  | succ n ihn =>
    intro i hsn hik hall
    have hik' : i < k := by omega
    have hi : i < es.length := lt_trans hik' hk
    unfold scanRun
    rw [show es.length - i = (es.length - (i + 1)) + 1 by omega]
    simp only [scanRunAux]
    rw [dif_pos hi]
    rw [if_neg (not_not_intro (hall i hi (le_refl _) (le_of_lt hik')))]
    have hne : ¬ (es.get ⟨i, hi⟩).token = term := by
      intro hceq
      have := token_get_inj es huni i k hi hk (hceq.trans htok.symm)
      omega
    rw [if_neg hne]
    have hru : scanRunAux es term h (es.length - (i + 1)) (i + 1) =
        scanRun es term h (i + 1) := rfl
    rw [hru]
    exact ihn (i + 1) (by omega) (by omega)
      (fun j hj h1 h2 => hall j hj (by omega) h2)

theorem segSearchLoop_finds (es : List DictEntry) (term : String) (h : Nat)
    (k : Nat) (hk : k < es.length)
    (hs : es.Pairwise fun a b => a.hash ≤ b.hash)
    (huni : (es.map (·.token)).Nodup)
    (htok : (es.get ⟨k, hk⟩).token = term)
    (hh : (es.get ⟨k, hk⟩).hash = h) :
    ∀ fuel (left right : Int), (right + 1 - left).toNat ≤ fuel →
      0 ≤ left → left ≤ (k : Int) → (k : Int) ≤ right →
      right ≤ (es.length : Int) - 1 →
      segSearchLoopAux es term h fuel left right = (es.get ⟨k, hk⟩).postings := by
  intro fuel
  induction fuel with
  | zero =>
    intro left right hn h0 hlk hkr hrl
    omega
  | succ n ih =>
    intro left right hn h0 hlk hkr hrl
    have hkl : k < es.length := hk
    simp only [segSearchLoopAux]
    rw [if_neg (show ¬ right < left by omega)]
    have hmid0 : 0 ≤ (left + right) / 2 := by omega
    have hmidl : left ≤ (left + right) / 2 := by omega
    have hmidr : (left + right) / 2 ≤ right := by omega
    have hmidlen : ((left + right) / 2).toNat < es.length := by omega
    rw [getEnt_eq es _ hmidlen]
    by_cases hlt : (es.get ⟨((left + right) / 2).toNat, hmidlen⟩).hash < h
    · rw [if_pos hlt]
      have hkm : ((left + right) / 2).toNat < k := by
        by_contra hc
        push_neg at hc
        have := sorted_hash_le es hs k ((left + right) / 2).toNat hk hmidlen hc
        omega
      exact ih ((left + right) / 2 + 1) right (by omega) (by omega) (by omega)
        (by omega) (by omega)
    · rw [if_neg hlt]
      by_cases hgt : h < (es.get ⟨((left + right) / 2).toNat, hmidlen⟩).hash
      · rw [if_pos hgt]
        have hkm : k < ((left + right) / 2).toNat := by
          by_contra hc
          push_neg at hc
          have := sorted_hash_le es hs ((left + right) / 2).toNat k hmidlen hk hc
          omega
        exact ih left ((left + right) / 2 - 1) (by omega) (by omega) (by omega)
          (by omega) (by omega)
      · rw [if_neg hgt]
        have heq : (es.get ⟨((left + right) / 2).toNat, hmidlen⟩).hash = h := by omega
        by_cases hconf : ((decide (0 < (left + right) / 2) &&
            decide ((getEnt es ((left + right) / 2 - 1)).hash = h)) ||
            (decide ((left + right) / 2 < (es.length : Int) - 1) &&
            decide ((getEnt es ((left + right) / 2 + 1)).hash = h))) = true
        · rw [if_pos hconf]
          -- the collision scan over the equal-hash run
          have hfle := findFirstMatch_le es h ((left + right) / 2).toNat
          have hfrun := findFirstMatch_run es h ((left + right) / 2).toNat
          have hffirst := findFirstMatch_first es h ((left + right) / 2).toNat
          have hfh : ∀ (hfl : findFirstMatch es h ((left + right) / 2).toNat < es.length),
              (es.get ⟨findFirstMatch es h ((left + right) / 2).toNat, hfl⟩).hash = h := by
            intro hfl
            rcases Nat.lt_or_ge (findFirstMatch es h ((left + right) / 2).toNat)
                ((left + right) / 2).toNat with hcase | hcase
            · have := hfrun _ (le_refl _) hcase
              rwa [List.getD_eq_get _ _ hfl] at this
            · have : findFirstMatch es h ((left + right) / 2).toNat =
                  ((left + right) / 2).toNat := le_antisymm hfle hcase
              rw [show (⟨findFirstMatch es h ((left + right) / 2).toNat, hfl⟩ :
                  Fin es.length) = ⟨((left + right) / 2).toNat, hmidlen⟩ by
                exact Fin.mk_eq_mk.mpr this]
              exact heq
          have hfk : findFirstMatch es h ((left + right) / 2).toNat ≤ k := by
            by_contra hc
            push_neg at hc
            -- k < firstMatch: the entry before the run start would share the hash
            have hf1 : 1 ≤ findFirstMatch es h ((left + right) / 2).toNat := by omega
            have hflen : findFirstMatch es h ((left + right) / 2).toNat - 1 <
                es.length := by
              have := hfle
              omega
            have hhigh : (es.get ⟨findFirstMatch es h ((left + right) / 2).toNat - 1,
                hflen⟩).hash ≤
                (es.get ⟨((left + right) / 2).toNat, hmidlen⟩).hash :=
              sorted_hash_le es hs _ _ _ _ (by omega)
            have hlow : (es.get ⟨k, hk⟩).hash ≤
                (es.get ⟨findFirstMatch es h ((left + right) / 2).toNat - 1,
                  hflen⟩).hash :=
              sorted_hash_le es hs _ _ _ _ (by omega)
            rcases hffirst with hzero | hne
            · omega
            · rw [List.getD_eq_get _ _ hflen] at hne
              omega
          refine scanRun_finds es term h k hk huni htok
            (k - findFirstMatch es h ((left + right) / 2).toNat) _ rfl hfk ?_
          intro j hj hj1 hj2
          have hfl : findFirstMatch es h ((left + right) / 2).toNat < es.length := by
            omega
          have e1 : (es.get ⟨findFirstMatch es h ((left + right) / 2).toNat,
              hfl⟩).hash ≤ (es.get ⟨j, hj⟩).hash :=
            sorted_hash_le es hs _ _ _ _ hj1
          have e2 : (es.get ⟨j, hj⟩).hash ≤ (es.get ⟨k, hk⟩).hash :=
            sorted_hash_le es hs _ _ _ _ hj2
          have e3 := hfh hfl
          omega
        · rw [if_neg hconf]
          -- the fast path: the probed entry is the only one with hash `h`
          simp only [Bool.or_eq_true, Bool.and_eq_true, decide_eq_true_eq, not_or,
            not_and] at hconf
          obtain ⟨hc1, hc2⟩ := hconf
          have hmk : ((left + right) / 2).toNat = k := by
            rcases Nat.lt_trichotomy ((left + right) / 2).toNat k with hcase | hcase | hcase
            · -- k to the right: the successor entry shares the hash
              exfalso
              have hsuclen : ((left + right) / 2).toNat + 1 < es.length := by omega
              have hsl2 : ((left + right) / 2 + 1).toNat < es.length := by omega
              have e1 : (es.get ⟨((left + right) / 2).toNat, hmidlen⟩).hash ≤
                  (es.get ⟨((left + right) / 2).toNat + 1, hsuclen⟩).hash :=
                sorted_hash_le es hs _ _ _ _ (by omega)
              have e2 : (es.get ⟨((left + right) / 2).toNat + 1, hsuclen⟩).hash ≤
                  (es.get ⟨k, hk⟩).hash :=
                sorted_hash_le es hs _ _ _ _ (by omega)
              have hmidlt : (left + right) / 2 < (es.length : Int) - 1 := by omega
              have hthis := hc2 hmidlt
              rw [getEnt_eq es ((left + right) / 2 + 1) hsl2,
                get_congr es (((left + right) / 2 + 1).toNat)
                  (((left + right) / 2).toNat + 1) hsl2 hsuclen (by omega)] at hthis
              omega
            · exact hcase
            · -- k to the left: the predecessor entry shares the hash
              exfalso
              have hprelen : ((left + right) / 2).toNat - 1 < es.length := by omega
              have hpl2 : ((left + right) / 2 - 1).toNat < es.length := by omega
              have e1 : (es.get ⟨k, hk⟩).hash ≤
                  (es.get ⟨((left + right) / 2).toNat - 1, hprelen⟩).hash :=
                sorted_hash_le es hs _ _ _ _ (by omega)
              have e2 : (es.get ⟨((left + right) / 2).toNat - 1, hprelen⟩).hash ≤
                  (es.get ⟨((left + right) / 2).toNat, hmidlen⟩).hash :=
                sorted_hash_le es hs _ _ _ _ (by omega)
              have hmid1 : (0 : Int) < (left + right) / 2 := by omega
              have hthis := hc1 hmid1
              rw [getEnt_eq es ((left + right) / 2 - 1) hpl2,
                get_congr es (((left + right) / 2 - 1).toNat)
                  (((left + right) / 2).toNat - 1) hpl2 hprelen (by omega)] at hthis
              omega
          exact congrArg DictEntry.postings
            (get_congr es (((left + right) / 2).toNat) k hmidlen hk hmk)

theorem segSearch_finds (hashF : String → Nat) (es : List DictEntry) (term : String)
    (k : Nat) (hk : k < es.length)
    (hs : es.Pairwise fun a b => a.hash ≤ b.hash)
    (huni : (es.map (·.token)).Nodup)
    (hcons : ∀ e ∈ es, e.hash = hashF e.token)
    (htok : (es.get ⟨k, hk⟩).token = term) :
    segSearch hashF es term = (es.get ⟨k, hk⟩).postings := by
  have hh : (es.get ⟨k, hk⟩).hash = hashF term := by
    rw [← htok]
    exact hcons _ (es.get_mem _ _)
  exact segSearchLoop_finds es term (hashF term) k hk hs huni htok hh
    ((es.length : Int) - 1 + 1 - 0).toNat 0 ((es.length : Int) - 1)
    (le_refl _) (le_refl _) (by omega) (by omega) (by omega)

theorem buildAndSearch_eq (hashF : String → Nat) (docs : List TokDoc) (t : String)
    (hocc : ∃ d ∈ docs, t ∈ d.tokens) :
    buildAndSearch hashF docs t =
      (docs.filter (fun d => t ∈ d.tokens)).map (·.id) := by
  have hany : docs.any (fun d => t ∈ d.tokens) = true := by
    obtain ⟨d, hd, ht⟩ := hocc
    exact List.any_eq_true.mpr ⟨d, hd, by simpa using ht⟩
  have hlook : lookupB (buildBuckets docs) t =
      some ((docs.filter (fun d => t ∈ d.tokens)).map (·.id)) := by
    rw [lookupB_buildBuckets, if_pos hany]
  have hmem := buildEntries_mem_of_lookupB hashF docs t _ hlook
  obtain ⟨nfin, hget⟩ := List.get_of_mem hmem
  unfold buildAndSearch
  have hget' : (buildEntries hashF docs).get ⟨nfin.1, nfin.2⟩ =
      DictEntry.mk t (hashF t) ((docs.filter (fun d => t ∈ d.tokens)).map (·.id)) := by
    rw [show (⟨nfin.1, nfin.2⟩ : Fin (buildEntries hashF docs).length) = nfin from
      Fin.eta nfin nfin.2]
    exact hget
  rw [segSearch_finds hashF _ t nfin.1 nfin.2 (buildEntries_sorted_hash hashF docs)
    (buildEntries_tokens_nodup hashF docs) (buildEntries_hash_consistent hashF docs)
    (by rw [hget'])]
  rw [hget']

/-- C1: for every list `D` of tokenized documents with pairwise-distinct ids
(each a `u32`) and every token `t` occurring in at least one document of `D`,
`buildAndSave(D)` followed by `search(t)` on the 64-bit index segment returns
exactly the set of ids of the documents of `D` whose token list contains `t`,
with no duplicate ids.  Proven for an arbitrary hash function `hashF`, hence
in particular for the default `Murmur3_64`. -/
theorem c1_segment_search_exact (hashF : String → Nat) (docs : List TokDoc)
    (t : String) (hids : (docs.map (·.id)).Nodup)
    (hocc : ∃ d ∈ docs, t ∈ d.tokens) :
    (∀ i, i ∈ buildAndSearch hashF docs t ↔ ∃ d ∈ docs, d.id = i ∧ t ∈ d.tokens) ∧
      (buildAndSearch hashF docs t).Nodup := by
  rw [buildAndSearch_eq hashF docs t hocc]
  constructor
  · intro i
    simp only [List.mem_map, List.mem_filter, decide_eq_true_eq]
    constructor
    · rintro ⟨d, ⟨hd, ht⟩, rfl⟩
      exact ⟨d, hd, rfl, ht⟩
    · rintro ⟨d, hd, rfl, ht⟩
      exact ⟨d, ⟨hd, ht⟩, rfl⟩
  · exact ((List.filter_sublist docs).map (·.id)).nodup hids

/-- Witness for C1 at a concrete input: two documents sharing the token
`"cd"`, with a constant hash function (forcing the collision-resolution
path of `search`). -/
theorem c1_segment_search_exact_witness :
    (([⟨1, ["ab", "cd"]⟩, ⟨2, ["cd"]⟩] : List TokDoc).map (·.id)).Nodup ∧
      (∃ d ∈ ([⟨1, ["ab", "cd"]⟩, ⟨2, ["cd"]⟩] : List TokDoc), "cd" ∈ d.tokens) ∧
      ((∀ i, i ∈ buildAndSearch (fun _ => 7) [⟨1, ["ab", "cd"]⟩, ⟨2, ["cd"]⟩] "cd" ↔
          ∃ d ∈ ([⟨1, ["ab", "cd"]⟩, ⟨2, ["cd"]⟩] : List TokDoc),
            d.id = i ∧ "cd" ∈ d.tokens) ∧
        (buildAndSearch (fun _ => 7) [⟨1, ["ab", "cd"]⟩, ⟨2, ["cd"]⟩] "cd").Nodup) :=
  ⟨by decide, by decide,
    c1_segment_search_exact (fun _ => 7) [⟨1, ["ab", "cd"]⟩, ⟨2, ["cd"]⟩] "cd"
      (by decide) (by decide)⟩

/-- C5: for every sequence of `appendBatch` calls on an initially empty log
whose tokens each encode to at most 65535 bytes (and whose ids and token
counts are `u32`s, as the record frame stores them), `readRange(log, 0,
size)` returns exactly the concatenated sequence of tokenized-document
records appended, under the record framing
`id: u32-LE | tokenCount: u32-LE | (tokenLen: u16-LE | tokenBytes)×n | 0x1E`. -/
theorem c5_log_roundtrip (enc : String → List UInt8) (dec : List UInt8 → String)
    (batches : List (List TokDoc))
    (hid : ∀ d ∈ batches.flatten, d.id < 4294967296)
    (hcount : ∀ d ∈ batches.flatten, d.tokens.length < 4294967296)
    (hlen : ∀ d ∈ batches.flatten, ∀ t ∈ d.tokens, (enc t).length ≤ 65535)
    (hdec : ∀ d ∈ batches.flatten, ∀ t ∈ d.tokens, dec (enc t) = t) :
    readRangeAll dec (batches.foldl (appendBatch enc) []) = batches.flatten := by
  unfold readRangeAll
  rw [foldl_appendBatch, List.nil_append]
  exact parseDocs_encodedList enc dec _ hid hcount hlen hdec

/-- Witness for C5 at a concrete input: two batches appended in sequence,
with the ASCII codec. -/
theorem c5_log_roundtrip_witness :
    (∀ d ∈ ([[⟨1, ["ab"]⟩], [⟨2, ["c", "de"]⟩]] :
        List (List TokDoc)).flatten, d.id < 4294967296) ∧
      (∀ d ∈ ([[⟨1, ["ab"]⟩], [⟨2, ["c", "de"]⟩]] :
        List (List TokDoc)).flatten, d.tokens.length < 4294967296) ∧
      (∀ d ∈ ([[⟨1, ["ab"]⟩], [⟨2, ["c", "de"]⟩]] :
        List (List TokDoc)).flatten, ∀ t ∈ d.tokens,
          (asciiEnc t).length ≤ 65535) ∧
      (∀ d ∈ ([[⟨1, ["ab"]⟩], [⟨2, ["c", "de"]⟩]] :
        List (List TokDoc)).flatten, ∀ t ∈ d.tokens,
          asciiDec (asciiEnc t) = t) ∧
      readRangeAll asciiDec
        (([[⟨1, ["ab"]⟩], [⟨2, ["c", "de"]⟩]] :
          List (List TokDoc)).foldl (appendBatch asciiEnc) []) =
        ([[⟨1, ["ab"]⟩], [⟨2, ["c", "de"]⟩]] : List (List TokDoc)).flatten :=
  ⟨by decide, by decide, by decide, by decide,
    c5_log_roundtrip asciiEnc asciiDec [[⟨1, ["ab"]⟩], [⟨2, ["c", "de"]⟩]]
      (by decide) (by decide) (by decide) (by decide)⟩

/-! ## Theorems about the segment file header (C9) -/

theorem take_length_append (A B : List UInt8) (n : Nat) (h : A.length = n) :
    (A ++ B).take n = A := by
  subst h
  exact List.take_left A B

/-- C9 counterexample: the claim says all multi-byte integers of the header
are written little-endian, but `buildAndSave` writes the magic with
`view.setUint32(0, 0x494E4458)` — the little-endian flag omitted — so the
file starts with the big-endian bytes `49 4E 44 58` ("INDX"), not the
little-endian `58 44 4E 49`.  At the concrete input `docs = []` the emitted
header differs from the all-little-endian header of the claim. -/
theorem c9_counterexample :
    (buildSegmentBytes (fun _ => 0) asciiEnc []).take 16 ≠ headerAllLE 0 16 ∧
      (buildSegmentBytes (fun _ => 0) asciiEnc []).take 4 =
        [0x49, 0x4E, 0x44, 0x58] := by
  constructor
  · decide
  · decide

/-- C9 as amended: `buildAndSave` of the 64-bit segment emits a 16-byte
header consisting of the magic `0x494E4458` written big-endian (so the file
begins with the ASCII bytes "INDX"), then the dictionary entry count (u32),
the tokens-region offset (u32), and the hash-width tag (u32 = 64), these
three little-endian. -/
theorem c9_header_layout (hashF : String → Nat) (enc : String → List UInt8)
    (docs : List TokDoc) :
    (buildSegmentBytes hashF enc docs).take 16 =
      be32 0x494E4458 ++ le32 (buildEntries hashF docs).length ++
        le32 (16 + (buildEntries hashF docs).length * 28 +
          ((buildEntries hashF docs).map fun e => e.postings.length).sum * 4) ++
        le32 64 := by
  unfold buildSegmentBytes
  dsimp only
  rw [List.append_assoc, List.append_assoc]
  exact take_length_append _ _ 16 (by simp [be32])

/-! ## Theorems about the engine: scoring (C2) -/

/-- C2 (code-bug evaluation): with the default tokenizer,
`addDocument({id:1,text:"Hello world"})` followed by `search("hello")`
returns `[{id: 1, score: 0, tokens: ["hello"]}]`, not score ≈ 1.5: the
first hit of an id initializes its `docMatches` entry with `score: 0` and
does **not** add the term's score `1 + 0.1×5 = 1.5` — only the `else`
branch of the hit loop increments `match.score`.  This contradicts the
claim, the spec's worked example S1, and the README's documented output
(`score: 1.5`). -/
theorem c2_first_hit_score_zero :
    engineSearch sumHash defaultTokenize
        ((addDocuments defaultConfig defaultDocTokenize asciiEnc asciiDec
          initialState [⟨1, "Hello world"⟩]).1) "hello" none =
      [⟨1, 0, ["hello"]⟩] ∧ (0 : ℚ) ≠ 3 / 2 := by
  constructor
  · decide
  · norm_num

/-! ## Theorems about the engine: segment rollover (C4) -/

/-- C4: in segment processing with a last segment present, a new segment is
opened (`isNew = true`, `startOffset = last.end`, `newTotal =
addedTokenCount`) if and only if `last.tokenCount ≥ threshold` or
`last.tokenCount + addedTokenCount ≥ threshold`; otherwise the tail segment
is extended in place with `startOffset = last.start` and `newTotal =
last.tokenCount + addedTokenCount`. -/
theorem c4_rollover_decision (threshold : Nat) (nextName : String) (l : SegMeta)
    (added : Nat) :
    ((segmentDecision threshold nextName (some l) added).2.2.1 = true ↔
      l.tokenCount ≥ threshold ∨ l.tokenCount + added ≥ threshold) ∧
    ((segmentDecision threshold nextName (some l) added).2.2.1 = true →
      segmentDecision threshold nextName (some l) added =
        (nextName, l.stop, true, added)) ∧
    ((segmentDecision threshold nextName (some l) added).2.2.1 = false →
      segmentDecision threshold nextName (some l) added =
        (l.filename, l.start, false, l.tokenCount + added)) := by
  unfold segmentDecision
  by_cases hc : l.tokenCount ≥ threshold ∨ l.tokenCount + added ≥ threshold
  · simp [hc]
  · simp [hc]

/-- Witness for C4 at a concrete input: the scenario of the spec's S4
(threshold 5, full tail with 5 tokens, 2 new tokens → new segment). -/
theorem c4_rollover_decision_witness :
    ((segmentDecision 5 "word_seg_2.bin"
        (some ⟨"word_seg_1.bin", 0, 40, 5⟩) 2).2.2.1 = true ↔
      (5 : Nat) ≥ 5 ∨ 5 + 2 ≥ 5) ∧
    ((segmentDecision 5 "word_seg_2.bin"
        (some ⟨"word_seg_1.bin", 0, 40, 5⟩) 2).2.2.1 = true →
      segmentDecision 5 "word_seg_2.bin" (some ⟨"word_seg_1.bin", 0, 40, 5⟩) 2 =
        ("word_seg_2.bin", 40, true, 2)) ∧
    ((segmentDecision 5 "word_seg_2.bin"
        (some ⟨"word_seg_1.bin", 0, 40, 5⟩) 2).2.2.1 = false →
      segmentDecision 5 "word_seg_2.bin" (some ⟨"word_seg_1.bin", 0, 40, 5⟩) 2 =
        ("word_seg_1.bin", 0, false, 5 + 2)) :=
  c4_rollover_decision 5 "word_seg_2.bin" ⟨"word_seg_1.bin", 0, 40, 5⟩ 2

/-! ## Theorems about the engine: strict intake errors (C7) -/

theorem validateStrict_some_of_conflict (s : EngineState) (docs : List Doc)
    (h : ∃ d ∈ docs, d.id ∈ s.deletedIds ∨ d.id ∈ s.addedIds) :
    ∃ e, validateStrict s docs = some e := by
  induction docs with
  | nil => simp at h
  | cons d ds ih =>
    by_cases h1 : d.id ∈ s.deletedIds
    · refine ⟨"Document ID " ++ toString d.id ++
        " has been deleted and cannot be re-added.", ?_⟩
      simp [validateStrict, List.findSome?_cons, h1]
    · by_cases h2 : d.id ∈ s.addedIds
      · refine ⟨"Document ID " ++ toString d.id ++ " already exists.", ?_⟩
        simp [validateStrict, List.findSome?_cons, h1, h2]
      · obtain ⟨d', hd', hc⟩ := h
        rcases List.mem_cons.mp hd' with rfl | hd'
        · exact absurd hc (by simp [h1, h2])
        · obtain ⟨e, he⟩ := ih ⟨d', hd', hc⟩
          refine ⟨e, ?_⟩
          simp only [validateStrict, List.findSome?_cons, if_neg h1, if_neg h2] at he ⊢
          exact he

/-- Shared helper: a strict `addDocuments` call containing a conflicting id
errors during validation, before any mutation, so the returned state is
exactly the input state. -/
theorem addDocuments_error_of_conflict (cfg : EngineConfig)
    (tok : Doc → List String) (enc : String → List UInt8)
    (dec : List UInt8 → String) (s : EngineState) (docs : List Doc)
    (hconf : ∃ d ∈ docs, d.id ∈ s.deletedIds ∨ d.id ∈ s.addedIds) :
    ∃ e, addDocuments cfg tok enc dec s docs = (s, some e) := by
  obtain ⟨e, he⟩ := validateStrict_some_of_conflict s docs hconf
  have hne : ¬ docs = [] := by
    rintro rfl
    simp at hconf
  refine ⟨e, ?_⟩
  unfold addDocuments
  rw [if_neg hne, he]

/-- C7: strict `addDocuments` throws whenever some document of the call has
an id already in `deletedIds` or in `addedIds`, and when it throws for this
reason the returned state is exactly the input state: nothing has been
appended to either log, `addedIds` and `deletedIds` are unchanged, and the
persisted meta (`savedMeta`) still reflects the last successful save. -/
theorem c7_strict_add_error_atomic (cfg : EngineConfig) (tok : Doc → List String)
    (enc : String → List UInt8) (dec : List UInt8 → String)
    (s : EngineState) (docs : List Doc)
    (hconf : ∃ d ∈ docs, d.id ∈ s.deletedIds ∨ d.id ∈ s.addedIds) :
    ∃ e, addDocuments cfg tok enc dec s docs = (s, some e) :=
  addDocuments_error_of_conflict cfg tok enc dec s docs hconf

/-- Witness for C7 at a concrete input: id 7 was tombstoned, then a strict
add of a batch containing id 7 errors with the state unchanged. -/
theorem c7_strict_add_error_atomic_witness :
    (∃ d ∈ ([⟨7, "ab"⟩, ⟨8, "cd"⟩] : List Doc),
      d.id ∈ (removeDocument initialState 7).deletedIds ∨
        d.id ∈ (removeDocument initialState 7).addedIds) ∧
    ∃ e, addDocuments defaultConfig defaultDocTokenize asciiEnc asciiDec
        (removeDocument initialState 7) [⟨7, "ab"⟩, ⟨8, "cd"⟩] =
      (removeDocument initialState 7, some e) :=
  ⟨by decide,
    c7_strict_add_error_atomic defaultConfig defaultDocTokenize asciiEnc asciiDec
      (removeDocument initialState 7) [⟨7, "ab"⟩, ⟨8, "cd"⟩] (by decide)⟩

/-! ## Theorems about the engine: frame lemmas -/

theorem updateSegment_frame (s : EngineState) (ty : IndexType) (f : String)
    (a b c : Nat) (nw : Bool) :
    (updateSegment s ty f a b c nw).segFiles = s.segFiles ∧
    (updateSegment s ty f a b c nw).wordCache = s.wordCache ∧
    (updateSegment s ty f a b c nw).charCache = s.charCache ∧
    (updateSegment s ty f a b c nw).addedIds = s.addedIds ∧
    (updateSegment s ty f a b c nw).deletedIds = s.deletedIds ∧
    (updateSegment s ty f a b c nw).inBatch = s.inBatch ∧
    (updateSegment s ty f a b c nw).pendingWord = s.pendingWord ∧
    (updateSegment s ty f a b c nw).pendingChar = s.pendingChar ∧
    (updateSegment s ty f a b c nw).savedMeta = s.savedMeta := by
  cases ty <;> exact ⟨rfl, rfl, rfl, rfl, rfl, rfl, rfl, rfl, rfl⟩

theorem processSegmentLogic_frame (cfg : EngineConfig) (dec : List UInt8 → String)
    (s : EngineState) (ty : IndexType) (n : Nat) :
    (processSegmentLogic cfg dec s ty n).wordCache = s.wordCache ∧
    (processSegmentLogic cfg dec s ty n).charCache = s.charCache ∧
    (processSegmentLogic cfg dec s ty n).addedIds = s.addedIds ∧
    (processSegmentLogic cfg dec s ty n).deletedIds = s.deletedIds ∧
    (processSegmentLogic cfg dec s ty n).inBatch = s.inBatch ∧
    (processSegmentLogic cfg dec s ty n).pendingWord = s.pendingWord ∧
    (processSegmentLogic cfg dec s ty n).pendingChar = s.pendingChar ∧
    (processSegmentLogic cfg dec s ty n).savedMeta = s.savedMeta := by
  unfold processSegmentLogic
  dsimp only
  split
  · cases ty <;> exact ⟨rfl, rfl, rfl, rfl, rfl, rfl, rfl, rfl⟩
  · cases ty <;> exact ⟨rfl, rfl, rfl, rfl, rfl, rfl, rfl, rfl⟩

/-! ## Theorems about the engine: the minSave frame (C8) -/

/-- C8: in segment processing, when the target segment's new total token
count is below the type's `minSave`, only the catalog descriptor is updated
(`start = startOffset`, `end = current cache size`, `tokenCount =
newTotal`) and no segment file is built or written (the file map and both
logs are unchanged); otherwise the log range `[startOffset, cacheSize)` is
read, the segment is built and saved under the target name, and the
descriptor is updated to the same values. -/
theorem c8_minsave_frame (cfg : EngineConfig) (dec : List UInt8 → String)
    (s : EngineState) (ty : IndexType) (n : Nat)
    (target : String) (startOffset : Nat) (isNew : Bool) (newTotal : Nat)
    (hd : segmentDecision (thresholdOf cfg ty)
        (segFileName ty ((segmentsOf s ty).length + 1))
        ((segmentsOf s ty).getLast?) n = (target, startOffset, isNew, newTotal)) :
    (newTotal < minSaveOf cfg ty →
      processSegmentLogic cfg dec s ty n =
        updateSegment s ty target startOffset (cacheOf s ty).length newTotal isNew ∧
      (processSegmentLogic cfg dec s ty n).segFiles = s.segFiles ∧
      (processSegmentLogic cfg dec s ty n).wordCache = s.wordCache ∧
      (processSegmentLogic cfg dec s ty n).charCache = s.charCache) ∧
    (minSaveOf cfg ty ≤ newTotal →
      processSegmentLogic cfg dec s ty n =
        updateSegment { s with segFiles := (assocSet s.segFiles target
            (parseDocs dec ((cacheOf s ty).drop startOffset))) } ty target
          startOffset (cacheOf s ty).length newTotal isNew) := by
  constructor
  · intro hmin
    have heq : processSegmentLogic cfg dec s ty n =
        updateSegment s ty target startOffset (cacheOf s ty).length newTotal isNew := by
      unfold processSegmentLogic
      dsimp only
      rw [hd]
      dsimp only
      rw [if_pos hmin]
    refine ⟨heq, ?_, ?_, ?_⟩
    · rw [heq]
      exact (updateSegment_frame s ty _ _ _ _ _).1
    · rw [heq]
      exact (updateSegment_frame s ty _ _ _ _ _).2.1
    · rw [heq]
      exact (updateSegment_frame s ty _ _ _ _ _).2.2.1
  · intro hmin
    unfold processSegmentLogic
    dsimp only
    rw [hd]
    dsimp only
    rw [if_neg (by omega)]

/-- Witness for C8 at a concrete input: the spec's S5 scenario
(`minWordTokenSave = 5`, 3 tokens added to an empty catalog → descriptor
only; and the same decision with `minSave = 0` → build-and-save branch). -/
theorem c8_minsave_frame_witness :
    (segmentDecision
        (thresholdOf ⟨10, 10, 5, 0⟩ .word)
        (segFileName .word ((segmentsOf initialState .word).length + 1))
        ((segmentsOf initialState .word).getLast?) 3 =
      ("word_seg_1.bin", 0, true, 3)) ∧
    ((3 < minSaveOf ⟨10, 10, 5, 0⟩ .word →
      processSegmentLogic ⟨10, 10, 5, 0⟩ asciiDec initialState .word 3 =
        updateSegment initialState .word "word_seg_1.bin" 0
          (cacheOf initialState .word).length 3 true ∧
      (processSegmentLogic ⟨10, 10, 5, 0⟩ asciiDec initialState .word 3).segFiles =
        initialState.segFiles ∧
      (processSegmentLogic ⟨10, 10, 5, 0⟩ asciiDec initialState .word 3).wordCache =
        initialState.wordCache ∧
      (processSegmentLogic ⟨10, 10, 5, 0⟩ asciiDec initialState .word 3).charCache =
        initialState.charCache) ∧
    (minSaveOf ⟨10, 10, 5, 0⟩ .word ≤ 3 →
      processSegmentLogic ⟨10, 10, 5, 0⟩ asciiDec initialState .word 3 =
        updateSegment { initialState with segFiles :=
            (assocSet initialState.segFiles "word_seg_1.bin"
              (parseDocs asciiDec ((cacheOf initialState .word).drop 0))) } .word
          "word_seg_1.bin" 0 (cacheOf initialState .word).length 3 true)) :=
  ⟨by decide,
    c8_minsave_frame ⟨10, 10, 5, 0⟩ asciiDec initialState .word 3
      "word_seg_1.bin" 0 true 3 (by decide)⟩

/-! ## Theorems about the engine: the id sets -/

theorem processSegmentLogic_deletedIds (cfg : EngineConfig)
    (dec : List UInt8 → String) (s : EngineState) (ty : IndexType) (n : Nat) :
    (processSegmentLogic cfg dec s ty n).deletedIds = s.deletedIds :=
  (processSegmentLogic_frame cfg dec s ty n).2.2.2.1

theorem processSegmentLogic_addedIds (cfg : EngineConfig)
    (dec : List UInt8 → String) (s : EngineState) (ty : IndexType) (n : Nat) :
    (processSegmentLogic cfg dec s ty n).addedIds = s.addedIds :=
  (processSegmentLogic_frame cfg dec s ty n).2.2.1

theorem mem_setInsert (l : List Nat) (y x : Nat) :
    x ∈ setInsert l y ↔ x ∈ l ∨ x = y := by
  unfold setInsert
  split
  · next h =>
    constructor
    · exact Or.inl
    · rintro (h1 | rfl)
      · exact h1
      · exact h
  · simp [List.mem_append]

theorem mem_setErase (l : List Nat) (y x : Nat) :
    x ∈ setErase l y ↔ x ∈ l ∧ x ≠ y := by
  unfold setErase
  simp [List.mem_filter]

theorem mem_foldl_setInsert (ids : List Nat) (l : List Nat) (x : Nat) :
    x ∈ ids.foldl setInsert l ↔ x ∈ l ∨ x ∈ ids := by
  induction ids generalizing l with
  | nil => simp
  | cons i is ih =>
    simp only [List.foldl_cons, ih, mem_setInsert, List.mem_cons]
    tauto

theorem commitIntake_sets (cfg : EngineConfig) (enc : String → List UInt8)
    (dec : List UInt8 → String) (s : EngineState) (ids : List Nat)
    (wb cb : List TokDoc) :
    (commitIntake cfg enc dec s ids wb cb).deletedIds = s.deletedIds ∧
    (commitIntake cfg enc dec s ids wb cb).addedIds =
      ids.foldl setInsert s.addedIds := by
  unfold commitIntake
  dsimp only
  split_ifs <;>
    simp [saveMeta, processSegmentLogic_deletedIds, processSegmentLogic_addedIds]

theorem applyOp_deleted_mono (cfg : EngineConfig) (tok : Doc → List String)
    (enc : String → List UInt8) (dec : List UInt8 → String)
    (s : EngineState) (op : EngineOp) (hop : op ≠ .clear) (x : Nat)
    (hx : x ∈ s.deletedIds) :
    x ∈ (applyOp cfg tok enc dec s op).deletedIds := by
  cases op with
  | add docs =>
    show x ∈ (addDocuments cfg tok enc dec s docs).1.deletedIds
    unfold addDocuments
    split
    · exact hx
    · split
      · exact hx
      · dsimp only
        rw [(commitIntake_sets cfg enc dec s _ _ _).1]
        exact hx
  | addIfMissing docs =>
    show x ∈ (addDocumentsIfMissing cfg tok enc dec s docs).deletedIds
    unfold addDocumentsIfMissing
    split
    · exact hx
    · dsimp only
      split
      · exact hx
      · rw [(commitIntake_sets cfg enc dec s _ _ _).1]
        exact hx
  | remove i =>
    show x ∈ (removeDocument s i).deletedIds
    show x ∈ setInsert s.deletedIds i
    rw [mem_setInsert]
    exact Or.inl hx
  | startB => exact hx
  | endB =>
    show x ∈ (endBatch cfg dec s).deletedIds
    unfold endBatch
    dsimp only
    split_ifs <;>
      simp [saveMeta, processSegmentLogic_deletedIds, hx]
  | clear => exact absurd rfl hop

theorem runOpsFrom_deleted_mono (cfg : EngineConfig) (tok : Doc → List String)
    (enc : String → List UInt8) (dec : List UInt8 → String)
    (ops : List EngineOp) (hops : EngineOp.clear ∉ ops)
    (s : EngineState) (x : Nat) (hx : x ∈ s.deletedIds) :
    x ∈ (runOpsFrom cfg tok enc dec s ops).deletedIds := by
  induction ops generalizing s with
  | nil => exact hx
  | cons op rest ih =>
    simp only [runOpsFrom, List.foldl_cons]
    exact ih (fun h => hops (List.mem_cons_of_mem _ h)) _
      (applyOp_deleted_mono cfg tok enc dec s op
        (fun hop => hops (by simp [hop])) x hx)

theorem endBatch_sets (cfg : EngineConfig) (dec : List UInt8 → String)
    (s : EngineState) :
    (endBatch cfg dec s).deletedIds = s.deletedIds ∧
    (endBatch cfg dec s).addedIds = s.addedIds := by
  unfold endBatch
  dsimp only
  split_ifs <;>
    simp [saveMeta, processSegmentLogic_deletedIds, processSegmentLogic_addedIds]

theorem validateStrict_none_ok (s : EngineState) (docs : List Doc)
    (h : validateStrict s docs = none) :
    ∀ d ∈ docs, d.id ∉ s.deletedIds ∧ d.id ∉ s.addedIds := by
  induction docs with
  | nil => simp
  | cons d ds ih =>
    simp only [validateStrict, List.findSome?_cons] at h
    by_cases h1 : d.id ∈ s.deletedIds
    · rw [if_pos h1] at h
      simp at h
    · rw [if_neg h1] at h
      by_cases h2 : d.id ∈ s.addedIds
      · rw [if_pos h2] at h
        simp at h
      · rw [if_neg h2] at h
        intro d' hd'
        rcases List.mem_cons.mp hd' with rfl | hd'
        · exact ⟨h1, h2⟩
        · exact ih h d' hd'

theorem applyOp_disjoint (cfg : EngineConfig) (tok : Doc → List String)
    (enc : String → List UInt8) (dec : List UInt8 → String)
    (s : EngineState) (op : EngineOp)
    (hs : ∀ i ∈ s.addedIds, i ∉ s.deletedIds) :
    ∀ i ∈ (applyOp cfg tok enc dec s op).addedIds,
      i ∉ (applyOp cfg tok enc dec s op).deletedIds := by
  cases op with
  | add docs =>
    show ∀ i ∈ (addDocuments cfg tok enc dec s docs).1.addedIds,
      i ∉ (addDocuments cfg tok enc dec s docs).1.deletedIds
    unfold addDocuments
    split
    · exact hs
    · split
      · exact hs
      · rename_i hval
        dsimp only
        intro i hi
        rw [(commitIntake_sets cfg enc dec s _ _ _).1]
        rw [(commitIntake_sets cfg enc dec s _ _ _).2, mem_foldl_setInsert] at hi
        rcases hi with hi | hi
        · exact hs i hi
        · obtain ⟨d, hd, rfl⟩ := List.mem_map.mp hi
          exact (validateStrict_none_ok s docs hval d hd).1
  | addIfMissing docs =>
    show ∀ i ∈ (addDocumentsIfMissing cfg tok enc dec s docs).addedIds,
      i ∉ (addDocumentsIfMissing cfg tok enc dec s docs).deletedIds
    unfold addDocumentsIfMissing
    split
    · exact hs
    · dsimp only
      split
      · exact hs
      · intro i hi
        rw [(commitIntake_sets cfg enc dec s _ _ _).1]
        rw [(commitIntake_sets cfg enc dec s _ _ _).2, mem_foldl_setInsert] at hi
        rcases hi with hi | hi
        · exact hs i hi
        · obtain ⟨d, hd, rfl⟩ := List.mem_map.mp hi
          have := List.mem_filter.mp hd
          simp only [Bool.and_eq_true, decide_eq_true_eq] at this
          exact this.2.1
  | remove y =>
    show ∀ i ∈ (removeDocument s y).addedIds, i ∉ (removeDocument s y).deletedIds
    intro i hi
    have hi' : i ∈ setErase s.addedIds y := hi
    rw [mem_setErase] at hi'
    show i ∉ setInsert s.deletedIds y
    rw [mem_setInsert]
    rintro (hc | rfl)
    · exact hs i hi'.1 hc
    · exact hi'.2 rfl
  | startB => exact hs
  | endB =>
    intro i hi
    have h1 := (endBatch_sets cfg dec s).1
    have h2 := (endBatch_sets cfg dec s).2
    show i ∉ (endBatch cfg dec s).deletedIds
    rw [h1]
    rw [show (applyOp cfg tok enc dec s .endB).addedIds =
      (endBatch cfg dec s).addedIds from rfl, h2] at hi
    exact hs i hi
  | clear =>
    intro i hi
    simp [applyOp, clearAll, initialState] at hi

theorem runOps_disjoint_from (cfg : EngineConfig) (tok : Doc → List String)
    (enc : String → List UInt8) (dec : List UInt8 → String)
    (ops : List EngineOp) (s : EngineState)
    (hs : ∀ i ∈ s.addedIds, i ∉ s.deletedIds) :
    ∀ i ∈ (runOpsFrom cfg tok enc dec s ops).addedIds,
      i ∉ (runOpsFrom cfg tok enc dec s ops).deletedIds := by
  induction ops generalizing s with
  | nil => exact hs
  | cons op rest ih =>
    simp only [runOpsFrom, List.foldl_cons]
    exact ih _ (applyOp_disjoint cfg tok enc dec s op hs)

/-! ## Theorems about the engine: the tombstone filter of `search` -/

theorem matchesUpdate_keys (m : List (Nat × ℚ × List String)) (i : Nat)
    (ts : ℚ) (term : String) :
    (matchesUpdate m i ts term).map Prod.fst = m.map Prod.fst := by
  induction m with
  | nil => rfl
  | cons p rest ih =>
    obtain ⟨k, sc, toks⟩ := p
    by_cases hk : k = i
    · simp [matchesUpdate, hk]
    · simp [matchesUpdate, hk, ih]

theorem applyHit_keys_not_deleted (deleted : List Nat) (term : String) (ts : ℚ)
    (m : List (Nat × ℚ × List String)) (id : Nat)
    (hm : ∀ p ∈ m, p.1 ∉ deleted) :
    ∀ p ∈ applyHit deleted term ts m id, p.1 ∉ deleted := by
  unfold applyHit
  split
  · exact hm
  · split
    · intro p hp
      have : p.1 ∈ (matchesUpdate m id ts term).map Prod.fst :=
        List.mem_map.mpr ⟨p, hp, rfl⟩
      rw [matchesUpdate_keys] at this
      obtain ⟨q, hq, hqp⟩ := List.mem_map.mp this
      rw [← hqp]
      exact hm q hq
    · next hdel _ =>
      intro p hp
      rcases List.mem_append.mp hp with hp | hp
      · exact hm p hp
      · simp only [List.mem_singleton] at hp
        subst hp
        exact hdel

theorem hitsFold_keys_not_deleted (deleted : List Nat) (term : String) (ts : ℚ)
    (hits : List Nat) (m : List (Nat × ℚ × List String))
    (hm : ∀ p ∈ m, p.1 ∉ deleted) :
    ∀ p ∈ hits.foldl (applyHit deleted term ts) m, p.1 ∉ deleted := by
  induction hits generalizing m with
  | nil => exact hm
  | cons i is ih =>
    simp only [List.foldl_cons]
    exact ih _ (applyHit_keys_not_deleted deleted term ts m i hm)

theorem termsFold_keys_not_deleted (hashF : String → Nat) (deleted : List Nat)
    (content : List TokDoc) (terms : List String)
    (m : List (Nat × ℚ × List String))
    (hm : ∀ p ∈ m, p.1 ∉ deleted) :
    ∀ p ∈ terms.foldl (fun m term =>
        (segmentHits hashF content term).foldl
          (applyHit deleted term (1 + term.length * (1 / 10 : ℚ))) m) m,
      p.1 ∉ deleted := by
  induction terms generalizing m with
  | nil => exact hm
  | cons t ts ih =>
    simp only [List.foldl_cons]
    exact ih _ (hitsFold_keys_not_deleted deleted t _ _ m hm)

theorem processTermsFold_keys_not_deleted (hashF : String → Nat)
    (deleted : List Nat) (files : List (String × List TokDoc))
    (segs : List SegMeta) (terms : List String)
    (m : List (Nat × ℚ × List String))
    (hm : ∀ p ∈ m, p.1 ∉ deleted) :
    ∀ p ∈ processTermsFold hashF deleted files segs terms m, p.1 ∉ deleted := by
  unfold processTermsFold
  induction segs generalizing m with
  | nil => exact hm
  | cons seg rest ih =>
    simp only [List.foldl_cons]
    refine ih _ ?_
    cases assocGet files seg.filename with
    | none => exact hm
    | some content => exact termsFold_keys_not_deleted hashF deleted content terms m hm

theorem engineSearch_not_deleted (hashF : String → Nat)
    (stok : String → List String) (s : EngineState) (q : String)
    (lim : Option Nat) (x : Nat) (hx : x ∈ s.deletedIds) :
    x ∉ (engineSearch hashF stok s q lim).map (·.id) := by
  intro hmem
  obtain ⟨r, hr, hrx⟩ := List.mem_map.mp hmem
  have hr' : r ∈ List.insertionSort resultLE
      ((processTermsFold hashF s.deletedIds s.segFiles s.charSegments
          ((stok q).filter fun t => t.length = 1)
          (processTermsFold hashF s.deletedIds s.segFiles s.wordSegments
            ((stok q).filter fun t => t.length > 1) [])).map
        fun p => SearchResult.mk p.1 p.2.1 p.2.2) := by
    unfold engineSearch at hr
    dsimp only at hr
    rcases lim with _ | l
    · exact hr
    · dsimp only at hr
      split at hr
      · exact List.mem_of_mem_take hr
      · exact hr
  rw [(List.perm_insertionSort resultLE _).mem_iff] at hr'
  obtain ⟨p, hp, hpr⟩ := List.mem_map.mp hr'
  have hnd := processTermsFold_keys_not_deleted hashF s.deletedIds s.segFiles
    s.charSegments ((stok q).filter fun t => t.length = 1) _
    (processTermsFold_keys_not_deleted hashF s.deletedIds s.segFiles
      s.wordSegments ((stok q).filter fun t => t.length > 1) []
      (by intro p hp; simp at hp)) p hp
  apply hnd
  have : p.1 = r.id := by rw [← hpr]
  rw [this, hrx]
  exact hx

/-! ## Theorems about the engine: tombstones (C3) -/

/-- C3 counterexample: after `removeDocument(1)`, a later `clearAll()`
followed by re-adding id 1 makes `search` return id 1 again — "no
subsequent search call ever includes x" fails as literally stated. -/
theorem c3_counterexample :
    1 ∈ ((engineSearch sumHash defaultTokenize
        (runOpsFrom defaultConfig defaultDocTokenize asciiEnc asciiDec
          (removeDocument
            (runOps defaultConfig defaultDocTokenize asciiEnc asciiDec []) 1)
          [.clear, .add [⟨1, "ab"⟩]]) "ab" none).map (·.id)) := by
  decide

/-- C3 as amended: at every reachable state
`addedIds ∩ deletedIds = ∅`, and after `removeDocument(x)`:
`x ∈ deletedIds`, `x ∉ addedIds`, `hasDocument(x) = true`, and no
subsequent search call includes `x` in its results as long as `clearAll`
is not invoked in between. -/
theorem c3_tombstone_invariants (cfg : EngineConfig) (tok : Doc → List String)
    (enc : String → List UInt8) (dec : List UInt8 → String)
    (hashF : String → Nat) (stok : String → List String)
    (ops₁ ops₂ : List EngineOp) (x : Nat) (q : String) (lim : Option Nat)
    (hops : EngineOp.clear ∉ ops₂) :
    (∀ i ∈ (runOps cfg tok enc dec ops₁).addedIds,
        i ∉ (runOps cfg tok enc dec ops₁).deletedIds) ∧
    x ∈ (removeDocument (runOps cfg tok enc dec ops₁) x).deletedIds ∧
    x ∉ (removeDocument (runOps cfg tok enc dec ops₁) x).addedIds ∧
    hasDocument (removeDocument (runOps cfg tok enc dec ops₁) x) x = true ∧
    x ∉ (engineSearch hashF stok
        (runOpsFrom cfg tok enc dec
          (removeDocument (runOps cfg tok enc dec ops₁) x) ops₂)
        q lim).map (·.id) := by
  have hdel : x ∈ (removeDocument (runOps cfg tok enc dec ops₁) x).deletedIds := by
    show x ∈ setInsert (runOps cfg tok enc dec ops₁).deletedIds x
    rw [mem_setInsert]
    exact Or.inr rfl
  refine ⟨?_, hdel, ?_, ?_, ?_⟩
  · exact runOps_disjoint_from cfg tok enc dec ops₁ initialState
      (by intro i hi; simp [initialState] at hi)
  · show x ∉ setErase (runOps cfg tok enc dec ops₁).addedIds x
    rw [mem_setErase]
    rintro ⟨_, hne⟩
    exact hne rfl
  · unfold hasDocument
    simp [hdel]
  · exact engineSearch_not_deleted hashF stok _ q lim x
      (runOpsFrom_deleted_mono cfg tok enc dec ops₂ hops _ x hdel)

/-- Witness for C3 at a concrete input: add a document, tombstone it, add
another document, then search — the tombstoned id never reappears. -/
theorem c3_tombstone_invariants_witness :
    (EngineOp.clear ∉ ([EngineOp.add [⟨2, "ab cd"⟩]] : List EngineOp)) ∧
    ((∀ i ∈ (runOps defaultConfig defaultDocTokenize asciiEnc asciiDec
          [EngineOp.add [⟨1, "ab"⟩]]).addedIds,
        i ∉ (runOps defaultConfig defaultDocTokenize asciiEnc asciiDec
          [EngineOp.add [⟨1, "ab"⟩]]).deletedIds) ∧
      1 ∈ (removeDocument (runOps defaultConfig defaultDocTokenize asciiEnc
        asciiDec [EngineOp.add [⟨1, "ab"⟩]]) 1).deletedIds ∧
      1 ∉ (removeDocument (runOps defaultConfig defaultDocTokenize asciiEnc
        asciiDec [EngineOp.add [⟨1, "ab"⟩]]) 1).addedIds ∧
      hasDocument (removeDocument (runOps defaultConfig defaultDocTokenize
        asciiEnc asciiDec [EngineOp.add [⟨1, "ab"⟩]]) 1) 1 = true ∧
      1 ∉ (engineSearch sumHash defaultTokenize
          (runOpsFrom defaultConfig defaultDocTokenize asciiEnc asciiDec
            (removeDocument (runOps defaultConfig defaultDocTokenize asciiEnc
              asciiDec [EngineOp.add [⟨1, "ab"⟩]]) 1)
            [EngineOp.add [⟨2, "ab cd"⟩]])
          "ab" none).map (·.id)) :=
  ⟨by decide,
    c3_tombstone_invariants defaultConfig defaultDocTokenize asciiEnc asciiDec
      sumHash defaultTokenize [EngineOp.add [⟨1, "ab"⟩]]
      [EngineOp.add [⟨2, "ab cd"⟩]] 1 "ab" none (by decide)⟩

/-! ## Theorems about the engine: removal of never-added ids (C10) -/

/-- C10 counterexample: `removeDocument(7)` on a fresh engine (id 7 never
added) tombstones id 7, but after a later `clearAll()` a strict
`addDocument` with id 7 no longer throws — "every later strict addDocument
call with that id throws" fails as literally stated. -/
theorem c10_counterexample :
    (addDocuments defaultConfig defaultDocTokenize asciiEnc asciiDec
        (clearAll (removeDocument initialState 7)) [⟨7, "ab"⟩]).2 = none ∧
      7 ∈ (removeDocument initialState 7).deletedIds := by
  constructor
  · decide
  · decide

/-- C10 as amended: `removeDocument(id)` succeeds for every id, including an
id that was never added: it unconditionally inserts the id into
`deletedIds` and persists the metadata, so that afterwards `hasDocument(id)`
is true and — as long as `clearAll` is not invoked in between — every later
strict `addDocuments` call containing that id throws and leaves the state
unchanged, even though the id never appeared in `addedIds`. -/
theorem c10_remove_never_added (cfg : EngineConfig) (tok : Doc → List String)
    (enc : String → List UInt8) (dec : List UInt8 → String)
    (s : EngineState) (x : Nat) (ops : List EngineOp) (docs : List Doc)
    (hops : EngineOp.clear ∉ ops) (hx : ∃ d ∈ docs, d.id = x) :
    x ∈ (removeDocument s x).deletedIds ∧
    hasDocument (removeDocument s x) x = true ∧
    (removeDocument s x).savedMeta = some (MetaSnapshot.mk
      (removeDocument s x).wordSegments (removeDocument s x).charSegments
      (removeDocument s x).addedIds (removeDocument s x).deletedIds) ∧
    (∃ e, addDocuments cfg tok enc dec
        (runOpsFrom cfg tok enc dec (removeDocument s x) ops) docs =
      (runOpsFrom cfg tok enc dec (removeDocument s x) ops, some e)) := by
  have hdel : x ∈ (removeDocument s x).deletedIds := by
    show x ∈ setInsert s.deletedIds x
    rw [mem_setInsert]
    exact Or.inr rfl
  refine ⟨hdel, ?_, rfl, ?_⟩
  · unfold hasDocument
    simp [hdel]
  · obtain ⟨d, hd, hdx⟩ := hx
    exact addDocuments_error_of_conflict cfg tok enc dec _ docs
      ⟨d, hd, Or.inl (hdx ▸ runOpsFrom_deleted_mono cfg tok enc dec ops hops _ x hdel)⟩

/-- Witness for C10 at a concrete input: remove the never-added id 7, add an
unrelated document, then a strict add containing id 7 still throws. -/
theorem c10_remove_never_added_witness :
    (EngineOp.clear ∉ ([EngineOp.add [⟨1, "ab"⟩]] : List EngineOp)) ∧
    (∃ d ∈ ([⟨7, "cd"⟩] : List Doc), d.id = 7) ∧
    (7 ∈ (removeDocument initialState 7).deletedIds ∧
      hasDocument (removeDocument initialState 7) 7 = true ∧
      (removeDocument initialState 7).savedMeta = some (MetaSnapshot.mk
        (removeDocument initialState 7).wordSegments
        (removeDocument initialState 7).charSegments
        (removeDocument initialState 7).addedIds
        (removeDocument initialState 7).deletedIds) ∧
      (∃ e, addDocuments defaultConfig defaultDocTokenize asciiEnc asciiDec
          (runOpsFrom defaultConfig defaultDocTokenize asciiEnc asciiDec
            (removeDocument initialState 7) [EngineOp.add [⟨1, "ab"⟩]])
          [⟨7, "cd"⟩] =
        (runOpsFrom defaultConfig defaultDocTokenize asciiEnc asciiDec
          (removeDocument initialState 7) [EngineOp.add [⟨1, "ab"⟩]], some e))) :=
  ⟨by decide, by decide,
    c10_remove_never_added defaultConfig defaultDocTokenize asciiEnc asciiDec
      initialState 7 [EngineOp.add [⟨1, "ab"⟩]] [⟨7, "cd"⟩] (by decide) (by decide)⟩

/-! ## Theorems about the engine: the catalog invariant (C6) -/

theorem chainedFrom_mono (p size size' : Nat) (segs : List SegMeta)
    (h : chainedFrom p size segs) (hs : size ≤ size') :
    chainedFrom p size' segs := by
  induction segs generalizing p with
  | nil => trivial
  | cons seg rest ih =>
    exact ⟨h.1, h.2.1, Nat.le_trans h.2.2.1 hs, ih seg.stop h.2.2.2⟩

theorem chainEnd_le (p size : Nat) (segs : List SegMeta) (hp : p ≤ size)
    (h : chainedFrom p size segs) : chainEnd p segs ≤ size := by
  induction segs generalizing p with
  | nil => exact hp
  | cons seg rest ih => exact ih seg.stop h.2.2.1 h.2.2.2

theorem chainEnd_getLast (p : Nat) (segs : List SegMeta) (l : SegMeta)
    (hl : segs.getLast? = some l) : chainEnd p segs = l.stop := by
  induction segs generalizing p with
  | nil => exact absurd hl (by simp)
  | cons seg rest ih =>
    cases rest with
    | nil =>
      simp only [List.getLast?_singleton, Option.some.injEq] at hl
      rw [hl]
      rfl
    | cons seg2 rest2 =>
      rw [List.getLast?_cons_cons] at hl
      exact ih seg.stop hl

theorem chainedFrom_all (p size : Nat) (segs : List SegMeta)
    (h : chainedFrom p size segs) :
    ∀ seg ∈ segs, seg.start ≤ seg.stop ∧ seg.stop ≤ size := by
  induction segs generalizing p with
  | nil => intro seg hm; exact absurd hm (by simp)
  | cons seg0 rest ih =>
    intro seg hm
    rcases List.mem_cons.mp hm with hm0 | hmr
    · rw [hm0]; exact ⟨h.2.1, h.2.2.1⟩
    · exact ih seg0.stop h.2.2.2 seg hmr

theorem chainedFrom_append_new (p size : Nat) (segs : List SegMeta)
    (f : String) (e tc : Nat) (h : chainedFrom p size segs)
    (he1 : chainEnd p segs ≤ e) (he2 : e ≤ size) :
    chainedFrom p size (segs ++ [⟨f, chainEnd p segs, e, tc⟩]) := by
  induction segs generalizing p with
  | nil => exact ⟨rfl, he1, he2, trivial⟩
  | cons seg rest ih =>
    exact ⟨h.1, h.2.1, h.2.2.1, ih seg.stop h.2.2.2 he1⟩

theorem chainedFrom_update_tail (p size : Nat) (segs : List SegMeta)
    (last : SegMeta) (e tc : Nat) (h : chainedFrom p size segs)
    (hl : segs.getLast? = some last) (he1 : last.start ≤ e) (he2 : e ≤ size) :
    chainedFrom p size
      (segs.dropLast ++ [{ last with stop := e, tokenCount := tc }]) := by
  induction segs generalizing p with
  | nil => exact absurd hl (by simp)
  | cons seg rest ih =>
    cases rest with
    | nil =>
      simp only [List.getLast?_singleton, Option.some.injEq] at hl
      subst hl
      exact ⟨h.1, he1, he2, trivial⟩
    | cons seg2 rest2 =>
      rw [List.getLast?_cons_cons] at hl
      exact ⟨h.1, h.2.1, h.2.2.1, ih seg.stop h.2.2.2 hl⟩

theorem getLast_of_getLast? (segs : List SegMeta) (l : SegMeta)
    (hl : segs.getLast? = some l) : l ∈ segs := by
  have hne : segs ≠ [] := by
    intro hs
    rw [hs] at hl
    exact absurd hl (by simp)
  have h2 := List.getLast?_eq_getLast segs hne
  rw [hl] at h2
  injection h2 with h3
  rw [h3]
  exact List.getLast_mem hne

theorem chainedFrom_updateSegmentList (threshold n size : Nat)
    (nextName : String) (segs : List SegMeta)
    (h : chainedFrom 0 size segs) :
    chainedFrom 0 size
      (updateSegmentList segs
        (segmentDecision threshold nextName segs.getLast? n).1
        (segmentDecision threshold nextName segs.getLast? n).2.1
        size
        (segmentDecision threshold nextName segs.getLast? n).2.2.2
        (segmentDecision threshold nextName segs.getLast? n).2.2.1) := by
  cases hl : segs.getLast? with
  | none =>
    have hnil : segs = [] := List.getLast?_eq_none_iff.mp hl
    subst hnil
    exact ⟨rfl, Nat.zero_le _, Nat.le_refl _, trivial⟩
  | some l =>
    have hd : segmentDecision threshold nextName (some l) n =
        if l.tokenCount ≥ threshold ∨ l.tokenCount + n ≥ threshold
        then (nextName, l.stop, true, n)
        else (l.filename, l.start, false, l.tokenCount + n) := rfl
    rw [hd]
    by_cases hth : l.tokenCount ≥ threshold ∨ l.tokenCount + n ≥ threshold
    · rw [if_pos hth]
      show chainedFrom 0 size (segs ++ [⟨nextName, l.stop, size, n⟩])
      have hend := chainEnd_getLast 0 segs l hl
      have hle : chainEnd 0 segs ≤ size := chainEnd_le 0 size segs (Nat.zero_le _) h
      rw [← hend]
      exact chainedFrom_append_new 0 size segs nextName size n h hle (Nat.le_refl _)
    · rw [if_neg hth]
      show chainedFrom 0 size
        (updateSegmentList segs l.filename l.start size (l.tokenCount + n) false)
      unfold updateSegmentList
      rw [if_neg (by simp), hl]
      dsimp only
      rw [if_pos rfl]
      have hall := chainedFrom_all 0 size segs h l (getLast_of_getLast? segs l hl)
      exact chainedFrom_update_tail 0 size segs l size (l.tokenCount + n) h hl
        (Nat.le_trans hall.1 hall.2) (Nat.le_refl _)

theorem updateSegmentList_length_ge (segs : List SegMeta) (f : String)
    (a e c : Nat) (nw : Bool) :
    segs.length ≤ (updateSegmentList segs f a e c nw).length := by
  cases nw with
  | true => simp [updateSegmentList]
  | false =>
    cases hl : segs.getLast? with
    | none => simp [updateSegmentList, hl]
    | some last =>
      have hne : segs ≠ [] := by
        intro hs
        rw [hs] at hl
        exact absurd hl (by simp)
      have hpos : 0 < segs.length := List.length_pos.mpr hne
      by_cases hf : last.filename = f
      · simp only [updateSegmentList, Bool.false_eq_true, if_false, hl, hf,
          if_true, List.length_append, List.length_dropLast,
          List.length_singleton]
        omega
      · simp [updateSegmentList, hl, hf]

theorem updateSegmentList_stop_le (segs : List SegMeta) (f : String)
    (a e c : Nat) (nw : Bool) (hb : ∀ seg ∈ segs, seg.stop ≤ e)
    (i : Nat) (hi : i < segs.length) :
    (segs.getD i ⟨"", 0, 0, 0⟩).stop ≤
      ((updateSegmentList segs f a e c nw).getD i ⟨"", 0, 0, 0⟩).stop := by
  cases nw with
  | true =>
    unfold updateSegmentList
    rw [if_pos rfl, List.getD_append _ _ _ _ hi]
  | false =>
    unfold updateSegmentList
    rw [if_neg (by simp)]
    cases hl : segs.getLast? with
    | none => exact Nat.le_refl _
    | some last =>
      dsimp only
      by_cases hf : last.filename = f
      · rw [if_pos hf]
        have hne : segs ≠ [] := by
          intro hs
          rw [hs] at hl
          exact absurd hl (by simp)
        have hlen := List.length_dropLast segs
        have hpos : 0 < segs.length := List.length_pos.mpr hne
        by_cases hlt : i < segs.dropLast.length
        · rw [List.getD_append _ _ _ _ hlt, List.getD_eq_getElem _ _ hlt,
            List.getElem_dropLast, List.getD_eq_getElem _ _ hi]
        · have hieq : i = segs.length - 1 := by omega
          subst hieq
          have hbound : segs.length - 1 <
              (segs.dropLast ++
                [{ last with stop := e, tokenCount := c }]).length := by
            rw [List.length_append, hlen, List.length_singleton]
            omega
          rw [List.getD_eq_getElem _ _ hbound,
            List.getElem_append_right (by omega), List.getElem_singleton,
            List.getD_eq_getElem _ _ hi, ← List.getLast_eq_getElem segs hne]
          exact hb _ (List.getLast_mem hne)
      · rw [if_neg hf]

theorem processSegmentLogic_segments (cfg : EngineConfig)
    (dec : List UInt8 → String) (s : EngineState) (ty : IndexType) (n : Nat) :
    segmentsOf (processSegmentLogic cfg dec s ty n) ty =
      updateSegmentList (segmentsOf s ty)
        (segmentDecision (thresholdOf cfg ty)
          (segFileName ty ((segmentsOf s ty).length + 1))
          ((segmentsOf s ty).getLast?) n).1
        (segmentDecision (thresholdOf cfg ty)
          (segFileName ty ((segmentsOf s ty).length + 1))
          ((segmentsOf s ty).getLast?) n).2.1
        (cacheOf s ty).length
        (segmentDecision (thresholdOf cfg ty)
          (segFileName ty ((segmentsOf s ty).length + 1))
          ((segmentsOf s ty).getLast?) n).2.2.2
        (segmentDecision (thresholdOf cfg ty)
          (segFileName ty ((segmentsOf s ty).length + 1))
          ((segmentsOf s ty).getLast?) n).2.2.1 := by
  unfold processSegmentLogic
  dsimp only
  split
  · cases ty <;> rfl
  · cases ty <;> rfl

theorem processSegmentLogic_segments_other (cfg : EngineConfig)
    (dec : List UInt8 → String) (s : EngineState) (ty : IndexType) (n : Nat)
    (ty' : IndexType) (hne : ty ≠ ty') :
    segmentsOf (processSegmentLogic cfg dec s ty n) ty' = segmentsOf s ty' := by
  unfold processSegmentLogic
  dsimp only
  split <;> cases ty <;> cases ty' <;> first | rfl | exact absurd rfl hne

theorem processSegmentLogic_catalogOk (cfg : EngineConfig)
    (dec : List UInt8 → String) (s : EngineState) (ty : IndexType) (n : Nat)
    (h : catalogOk s) : catalogOk (processSegmentLogic cfg dec s ty n) := by
  obtain ⟨hfw, hfc, -⟩ := processSegmentLogic_frame cfg dec s ty n
  cases ty with
  | word =>
    constructor
    · show chainedFrom 0 (processSegmentLogic cfg dec s .word n).wordCache.length
        (segmentsOf (processSegmentLogic cfg dec s .word n) .word)
      rw [hfw, processSegmentLogic_segments cfg dec s .word n]
      exact chainedFrom_updateSegmentList _ _ _ _ _ h.1
    · show chainedFrom 0 (processSegmentLogic cfg dec s .word n).charCache.length
        (segmentsOf (processSegmentLogic cfg dec s .word n) .char)
      rw [hfc, processSegmentLogic_segments_other cfg dec s .word n .char
        (by decide)]
      exact h.2
  | char =>
    constructor
    · show chainedFrom 0 (processSegmentLogic cfg dec s .char n).wordCache.length
        (segmentsOf (processSegmentLogic cfg dec s .char n) .word)
      rw [hfw, processSegmentLogic_segments_other cfg dec s .char n .word
        (by decide)]
      exact h.1
    · show chainedFrom 0 (processSegmentLogic cfg dec s .char n).charCache.length
        (segmentsOf (processSegmentLogic cfg dec s .char n) .char)
      rw [hfc, processSegmentLogic_segments cfg dec s .char n]
      exact chainedFrom_updateSegmentList _ _ _ _ _ h.2

theorem processSegmentLogic_length_ge (cfg : EngineConfig)
    (dec : List UInt8 → String) (s : EngineState) (ty : IndexType) (n : Nat)
    (ty' : IndexType) :
    (segmentsOf s ty').length ≤
      (segmentsOf (processSegmentLogic cfg dec s ty n) ty').length := by
  by_cases hty : ty = ty'
  · subst hty
    rw [processSegmentLogic_segments cfg dec s ty n]
    exact updateSegmentList_length_ge _ _ _ _ _ _
  · rw [processSegmentLogic_segments_other cfg dec s ty n ty' hty]

theorem processSegmentLogic_stop_le (cfg : EngineConfig)
    (dec : List UInt8 → String) (s : EngineState) (ty : IndexType) (n : Nat)
    (hok : catalogOk s) (ty' : IndexType) (i : Nat)
    (hi : i < (segmentsOf s ty').length) :
    ((segmentsOf s ty').getD i ⟨"", 0, 0, 0⟩).stop ≤
      ((segmentsOf (processSegmentLogic cfg dec s ty n) ty').getD i
        ⟨"", 0, 0, 0⟩).stop := by
  by_cases hty : ty = ty'
  · subst hty
    have hchain : chainedFrom 0 (cacheOf s ty).length (segmentsOf s ty) := by
      cases ty
      · exact hok.1
      · exact hok.2
    rw [processSegmentLogic_segments cfg dec s ty n]
    exact updateSegmentList_stop_le _ _ _ _ _ _
      (fun seg hm => (chainedFrom_all 0 _ _ hchain seg hm).2) i hi
  · rw [processSegmentLogic_segments_other cfg dec s ty n ty' hty]

theorem catalogStep_congr (u v : EngineState)
    (hw : v.wordSegments = u.wordSegments)
    (hc : v.charSegments = u.charSegments)
    (hwc : u.wordCache.length ≤ v.wordCache.length)
    (hcc : u.charCache.length ≤ v.charCache.length) :
    catalogStep u v := by
  refine ⟨fun h => ⟨?_, ?_⟩, fun ty => ⟨?_, fun _ i hi => ?_⟩⟩
  · show chainedFrom 0 v.wordCache.length v.wordSegments
    rw [hw]
    exact chainedFrom_mono _ _ _ _ h.1 hwc
  · show chainedFrom 0 v.charCache.length v.charSegments
    rw [hc]
    exact chainedFrom_mono _ _ _ _ h.2 hcc
  · cases ty
    · show u.wordSegments.length ≤ v.wordSegments.length
      rw [hw]
    · show u.charSegments.length ≤ v.charSegments.length
      rw [hc]
  · cases ty
    · show (u.wordSegments.getD i ⟨"", 0, 0, 0⟩).stop ≤
        (v.wordSegments.getD i ⟨"", 0, 0, 0⟩).stop
      rw [hw]
    · show (u.charSegments.getD i ⟨"", 0, 0, 0⟩).stop ≤
        (v.charSegments.getD i ⟨"", 0, 0, 0⟩).stop
      rw [hc]

theorem catalogStep_self (u : EngineState) : catalogStep u u :=
  catalogStep_congr u u rfl rfl (Nat.le_refl _) (Nat.le_refl _)

theorem saveMeta_catalogStep (u : EngineState) : catalogStep u (saveMeta u) :=
  catalogStep_congr u (saveMeta u) rfl rfl (Nat.le_refl _) (Nat.le_refl _)

theorem catalogStep_trans {u v w : EngineState}
    (h1 : catalogStep u v) (h2 : catalogStep v w) : catalogStep u w :=
  ⟨fun h => h2.1 (h1.1 h), fun ty =>
    ⟨Nat.le_trans (h1.2 ty).1 (h2.2 ty).1,
      fun hok i hi => Nat.le_trans ((h1.2 ty).2 hok i hi)
        ((h2.2 ty).2 (h1.1 hok) i (Nat.lt_of_lt_of_le hi (h1.2 ty).1))⟩⟩

theorem processSegmentLogic_catalogStep (cfg : EngineConfig)
    (dec : List UInt8 → String) (s : EngineState) (ty : IndexType) (n : Nat) :
    catalogStep s (processSegmentLogic cfg dec s ty n) :=
  ⟨processSegmentLogic_catalogOk cfg dec s ty n, fun ty' =>
    ⟨processSegmentLogic_length_ge cfg dec s ty n ty',
      fun hok i hi => processSegmentLogic_stop_le cfg dec s ty n hok ty' i hi⟩⟩

theorem catalogStep_pendReset (u : EngineState) :
    catalogStep u { u with pendingWord := 0, pendingChar := 0 } :=
  catalogStep_congr _ _ rfl rfl (Nat.le_refl _) (Nat.le_refl _)

theorem commitIntake_catalogStep (cfg : EngineConfig)
    (enc : String → List UInt8) (dec : List UInt8 → String) (s : EngineState)
    (ids : List Nat) (wb cb : List TokDoc) :
    catalogStep s (commitIntake cfg enc dec s ids wb cb) := by
  unfold commitIntake
  dsimp only
  split_ifs
  all_goals try refine catalogStep_trans ?_ (saveMeta_catalogStep _)
  all_goals try refine catalogStep_trans ?_ (processSegmentLogic_catalogStep _ _ _ _ _)
  all_goals try refine catalogStep_trans ?_ (processSegmentLogic_catalogStep _ _ _ _ _)
  all_goals exact catalogStep_congr _ _ rfl rfl (by simp [appendBatch]) (by simp [appendBatch])

theorem endBatch_catalogStep (cfg : EngineConfig) (dec : List UInt8 → String)
    (s : EngineState) : catalogStep s (endBatch cfg dec s) := by
  unfold endBatch
  dsimp only
  split_ifs
  all_goals refine catalogStep_trans ?_ (saveMeta_catalogStep _)
  all_goals refine catalogStep_trans ?_ (catalogStep_pendReset _)
  all_goals try refine catalogStep_trans ?_ (processSegmentLogic_catalogStep _ _ _ _ _)
  all_goals try refine catalogStep_trans ?_ (processSegmentLogic_catalogStep _ _ _ _ _)
  all_goals exact catalogStep_congr _ _ rfl rfl (by simp) (by simp)

theorem addDocuments_catalogStep (cfg : EngineConfig) (tok : Doc → List String)
    (enc : String → List UInt8) (dec : List UInt8 → String)
    (s : EngineState) (docs : List Doc) :
    catalogStep s (addDocuments cfg tok enc dec s docs).1 := by
  unfold addDocuments
  by_cases hd : docs = []
  · rw [if_pos hd]
    exact catalogStep_self s
  · rw [if_neg hd]
    cases hv : validateStrict s docs with
    | some e => exact catalogStep_self s
    | none => exact commitIntake_catalogStep _ _ _ _ _ _ _

theorem addDocumentsIfMissing_catalogStep (cfg : EngineConfig)
    (tok : Doc → List String) (enc : String → List UInt8)
    (dec : List UInt8 → String) (s : EngineState) (docs : List Doc) :
    catalogStep s (addDocumentsIfMissing cfg tok enc dec s docs) := by
  unfold addDocumentsIfMissing
  dsimp only
  split_ifs <;>
    first
      | exact catalogStep_self s
      | exact commitIntake_catalogStep _ _ _ _ _ _ _

theorem applyOp_catalogStep (cfg : EngineConfig) (tok : Doc → List String)
    (enc : String → List UInt8) (dec : List UInt8 → String)
    (s : EngineState) (op : EngineOp) (hop : op ≠ .clear) :
    catalogStep s (applyOp cfg tok enc dec s op) := by
  cases op with
  | add docs => exact addDocuments_catalogStep cfg tok enc dec s docs
  | addIfMissing docs =>
    exact addDocumentsIfMissing_catalogStep cfg tok enc dec s docs
  | remove id =>
    exact catalogStep_congr _ _ rfl rfl (Nat.le_refl _) (Nat.le_refl _)
  | startB =>
    exact catalogStep_congr _ _ rfl rfl (Nat.le_refl _) (Nat.le_refl _)
  | endB => exact endBatch_catalogStep cfg dec s
  | clear => exact absurd rfl hop

theorem applyOp_catalogOk (cfg : EngineConfig) (tok : Doc → List String)
    (enc : String → List UInt8) (dec : List UInt8 → String)
    (s : EngineState) (op : EngineOp) (h : catalogOk s) :
    catalogOk (applyOp cfg tok enc dec s op) := by
  by_cases hop : op = .clear
  · subst hop
    exact ⟨trivial, trivial⟩
  · exact (applyOp_catalogStep cfg tok enc dec s op hop).1 h

theorem runOpsFrom_catalogOk (cfg : EngineConfig) (tok : Doc → List String)
    (enc : String → List UInt8) (dec : List UInt8 → String)
    (s : EngineState) (ops : List EngineOp) (h : catalogOk s) :
    catalogOk (runOpsFrom cfg tok enc dec s ops) := by
  induction ops generalizing s with
  | nil => exact h
  | cons op rest ih =>
    exact ih _ (applyOp_catalogOk cfg tok enc dec s op h)

/-- C6: for each index type, after any sequence of engine operations the
segment catalog satisfies `segments[0].start = 0`,
`segments[i].start = segments[i-1].end` for `i ≥ 1`, and every descriptor's
`end` is bounded by the size of that type's log file (`catalogOk`);
moreover each descriptor's `end` is non-decreasing over time: across any
further operation, a descriptor present before and after has an `end` at
least as large afterwards. -/
theorem c6_catalog_invariant (cfg : EngineConfig) (tok : Doc → List String)
    (enc : String → List UInt8) (dec : List UInt8 → String)
    (ops : List EngineOp) (op : EngineOp) (ty : IndexType) (i : Nat)
    (hi : i < (segmentsOf (runOps cfg tok enc dec ops) ty).length)
    (hi' : i < (segmentsOf (applyOp cfg tok enc dec
        (runOps cfg tok enc dec ops) op) ty).length) :
    catalogOk (runOps cfg tok enc dec ops) ∧
      ((segmentsOf (runOps cfg tok enc dec ops) ty).get ⟨i, hi⟩).stop ≤
        ((segmentsOf (applyOp cfg tok enc dec (runOps cfg tok enc dec ops) op)
            ty).get ⟨i, hi'⟩).stop := by
  have hok : catalogOk (runOps cfg tok enc dec ops) :=
    runOpsFrom_catalogOk cfg tok enc dec initialState ops ⟨trivial, trivial⟩
  refine ⟨hok, ?_⟩
  by_cases hop : op = .clear
  · subst hop
    have hz : (segmentsOf (applyOp cfg tok enc dec
        (runOps cfg tok enc dec ops) .clear) ty).length = 0 := by
      cases ty <;> rfl
    omega
  · have hstep := applyOp_catalogStep cfg tok enc dec
      (runOps cfg tok enc dec ops) op hop
    have hm := (hstep.2 ty).2 hok i hi
    rw [List.getD_eq_getElem _ _ hi, List.getD_eq_getElem _ _ hi'] at hm
    exact hm

/-- Witness for C6 at a concrete input: one document added, then a second
add extends the word segment in place — descriptor 0's `end` grows from 23
to 40 and never decreases. -/
theorem c6_catalog_invariant_witness :
    catalogOk (runOps defaultConfig defaultDocTokenize asciiEnc asciiDec
      [.add [⟨1, "hello world"⟩]]) ∧
      ((segmentsOf (runOps defaultConfig defaultDocTokenize asciiEnc asciiDec
          [.add [⟨1, "hello world"⟩]]) .word).get ⟨0, by decide⟩).stop ≤
        ((segmentsOf (applyOp defaultConfig defaultDocTokenize asciiEnc
            asciiDec (runOps defaultConfig defaultDocTokenize asciiEnc asciiDec
              [.add [⟨1, "hello world"⟩]]) (.add [⟨2, "foo bar"⟩]))
            .word).get ⟨0, by decide⟩).stop :=
  c6_catalog_invariant defaultConfig defaultDocTokenize asciiEnc asciiDec
    [.add [⟨1, "hello world"⟩]] (.add [⟨2, "foo bar"⟩]) .word 0
    (by decide) (by decide)

end GsSearch
